import Mathlib

/-!
Verification development for the OBIS frontmatter template engine
(`bin/PyObis/ObisDatabase.py`): a shallow embedding of its data model and
operations, and theorems about the behaviour of placeholder substitution,
rename resolution, reconciliation, document processing and tree traversal.

Modelling conventions:
* Python's dynamically typed YAML value space is the inductive `Val`;
  Python dicts are ordered association lists with unique keys.
* Filesystem paths are lists of components of an absolute path
  (`/a/b/c.md` is `["a", "b", "c.md"]`; the filesystem root is `[]`).
* Text scanning primitives (`str.replace`, the two `re.sub` calls,
  `fnmatch`) are embedded as structural recursions carrying a fuel
  argument that is always instantiated with the scanned list's length
  (each step consumes at least one character, so that fuel suffices).
* The YAML codec (`yaml.safe_load` / `yaml.safe_dump`) is a third-party
  library; it is modelled on the fragment the engine's round-trip
  actually exercises: flat mappings from plain scalar keys to plain
  scalar string values.  Inputs outside the fragment parse as the empty
  mapping (mirroring the source's "malformed frontmatter means empty
  metadata" fallback), and serialisation is partial (`Option`).
-/

set_option maxHeartbeats 1000000

namespace Obis

/-- The dynamic value space of the engine: YAML scalars, sequences and
mappings, plus the internal `KEEP_EXISTING` marker (the `_KEEP` singleton
produced for `%wert%`).  `vnull` is Python `None` (YAML null, and the
result of resolving the `=leer=` sentinel). -/
inductive Val where
  | str (s : String)
  | vint (n : Int)
  | vbool (b : Bool)
  | vnull
  | keep
  | list (items : List Val)
  | map (entries : List (String × Val))

/-- Python `v is KEEP_EXISTING` (identity test against the `_KEEP` singleton). -/
def Val.isKeep : Val → Bool
  | .keep => true
  | _ => false

/-- Python `v is None`. -/
def Val.isNull : Val → Bool
  | .vnull => true
  | _ => false

/-- Python `isinstance(v, dict)`. -/
def Val.isMap : Val → Bool
  | .map _ => true
  | _ => false

/-- An ordered string-keyed mapping, modelling a Python `dict`
(insertion order preserved, keys unique). -/
abbrev Dict := List (String × Val)

/-- Python `k in d` / `d[k]` lookup (first matching key). -/
def dictLookup (d : Dict) (k : String) : Option Val :=
  match d with
  | [] => none
  | (k', v) :: t => if k' = k then some v else dictLookup t k

/-- Python `d[k] = v`: overwrite in place when the key exists, else append. -/
def dictInsert (d : Dict) (k : String) (v : Val) : Dict :=
  match d with
  | [] => [(k, v)]
  | (k', v') :: t => if k' = k then (k', v) :: t else (k', v') :: dictInsert t k v

/-- The keys of a model dict. -/
def dictKeys (d : Dict) : List String := d.map Prod.fst

/- ===================== string helpers ===================== -/

/-- ASCII whitespace as recognised by Python's `str.strip`. -/
def isPyWS (c : Char) : Bool :=
  c = ' ' || c = '\t' || c = '\n' || c = '\r' || c = '\x0b' || c = '\x0c'

/-- Python `s.strip()`. -/
def pyStrip (s : String) : String :=
  ⟨((s.data.dropWhile isPyWS).reverse.dropWhile isPyWS).reverse⟩

/-- Python `s.lstrip("\n")`. -/
def lstripNL (s : String) : String :=
  ⟨s.data.dropWhile (fun c => c = '\n')⟩

/-- Python `str.splitlines(keepends=True)` restricted to `\n` line ends
(the only terminator produced by the engine's own writer). -/
def splitLinesGo : List Char → List Char → List String
  | [], acc => if acc.isEmpty then [] else [⟨acc.reverse⟩]
  | c :: cs, acc =>
    if c = '\n' then ⟨(c :: acc).reverse⟩ :: splitLinesGo cs []
    else splitLinesGo cs (c :: acc)

def splitLinesKeep (s : String) : List String := splitLinesGo s.data []

/-- Python `str.replace(old, new)` (left-to-right, non-overlapping); the
fuel is instantiated with the scanned list's length. -/
def replGo (pat rep : List Char) : Nat → List Char → List Char
  | _, [] => []
  | 0, cs => cs
  | n + 1, c :: cs =>
    if pat.isPrefixOf (c :: cs) then rep ++ replGo pat rep n ((c :: cs).drop pat.length)
    else c :: replGo pat rep n cs

/-- Python `s.replace(pat, rep)` for a non-empty pattern (all the
engine's patterns are non-empty literals). -/
def pyReplace (s pat rep : String) : String :=
  if pat.data.isEmpty then s
  else ⟨replGo pat.data rep.data s.data.length s.data⟩

/-- Greedy digit run: `takeDigits cs = (digits, rest)`. -/
def takeDigits : List Char → List Char × List Char
  | [] => ([], [])
  | c :: cs =>
    if c.isDigit then
      let p := takeDigits cs
      (c :: p.1, p.2)
    else ([], c :: cs)

/-- `int` of a digit run. -/
def digitsToNat (ds : List Char) : Nat :=
  ds.foldl (fun acc c => acc * 10 + (c.toNat - 48)) 0

/-- One `re.sub` pass for a pattern `LIT(\d+)%` (`LIT` is `%folder` or
`%root`): leftmost non-overlapping matches, greedy digit group, each match
replaced by `rep` applied to the numeric group. -/
def regexGo (lit : List Char) (rep : Nat → List Char) : Nat → List Char → List Char
  | _, [] => []
  | 0, cs => cs
  | n + 1, c :: cs =>
    if lit.isPrefixOf (c :: cs) then
      let rest := (c :: cs).drop lit.length
      let p := takeDigits rest
      match p.1, p.2 with
      | _ :: _, '%' :: rest2 => rep (digitsToNat p.1) ++ regexGo lit rep n rest2
      | _, _ => c :: regexGo lit rep n cs
    else c :: regexGo lit rep n cs

/-- `re.sub(LIT ++ "(\d+)%", rep, s)`. -/
def regexSubNum (lit : String) (rep : Nat → String) (s : String) : String :=
  ⟨regexGo lit.data (fun n => (rep n).data) s.data.length s.data⟩

/- ===================== fnmatch model ===================== -/

/-- Parse a shell bracket class after the opening `[`: optional leading
`!` negates; a `]` in the first member position is a literal member;
`a-b` denotes a range.  Returns `(negated, ranges, rest)`, or `none` when
the class is unterminated (then `[` matches literally, as in
`fnmatch.translate`). -/
def classMembers : List Char → Option (List (Char × Char) × List Char)
  | [] => none
  | ']' :: rest => some ([], rest)
  | a :: '-' :: b :: rest =>
    if b = ']' then some ([(a, a), ('-', '-')], rest)
    else
      match classMembers rest with
      | some (ms, r) => some ((a, b) :: ms, r)
      | none => none
  | a :: rest =>
    match classMembers rest with
    | some (ms, r) => some ((a, a) :: ms, r)
    | none => none

def parseClass (cs : List Char) : Option (Bool × List (Char × Char) × List Char) :=
  match cs with
  | '!' :: ']' :: rest =>
    match classMembers rest with
    | some (ms, r) => some (true, (']', ']') :: ms, r)
    | none => none
  | '!' :: rest =>
    match classMembers rest with
    | some (ms, r) => some (true, ms, r)
    | none => none
  | ']' :: rest =>
    match classMembers rest with
    | some (ms, r) => some (false, (']', ']') :: ms, r)
    | none => none
  | rest =>
    match classMembers rest with
    | some (ms, r) => some (false, ms, r)
    | none => none

def inClass (c : Char) (ms : List (Char × Char)) : Bool :=
  ms.any (fun m => m.1 ≤ c ∧ c ≤ m.2)

/-- Shell-style glob match (model of `fnmatch.fnmatch` on POSIX, where
`normcase` is the identity): `*`, `?` and bracket classes.  The fuel is
instantiated with `pattern.length + name.length`; every step shrinks
that sum. -/
def gmGo : Nat → List Char → List Char → Bool
  | 0, p, s => p.isEmpty && s.isEmpty
  | _ + 1, [], s => s.isEmpty
  | n + 1, '*' :: ps, s =>
    gmGo n ps s ||
      (match s with
       | [] => false
       | _ :: s' => gmGo n ('*' :: ps) s')
  | n + 1, '?' :: ps, s =>
    (match s with
     | [] => false
     | _ :: s' => gmGo n ps s')
  | n + 1, '[' :: ps, s =>
    (match parseClass ps with
     | some (neg, ms, rest) =>
       match s with
       | [] => false
       | c :: s' => (if neg then !inClass c ms else inClass c ms) && gmGo n rest s'
     | none =>
       match s with
       | [] => false
       | c :: s' => (c = '[') && gmGo n ps s')
  | n + 1, pc :: ps, s =>
    (match s with
     | [] => false
     | c :: s' => (c = pc) && gmGo n ps s')

/-- `fnmatch.fnmatch(name, pat)`. -/
def fnmatchB (name pat : String) : Bool :=
  gmGo (pat.data.length + name.data.length + 1) pat.data name.data

/- ===================== path helpers ===================== -/

/-- An absolute filesystem path as its list of components
(`/a/b/c` is `["a", "b", "c"]`; the filesystem root `/` is `[]`).
Paths are taken as already resolved (`Path.resolve` is the identity in
the model: no symlinks or `..` segments). -/
abbrev DPath := List String

/-- `Path.name` (the filesystem root has name `""`). -/
def pathName (p : DPath) : String := p.getLastD ""

/-- `Path.parent` (the root is its own parent). -/
def pathParent (p : DPath) : DPath := p.dropLast

/-- `[p, *p.parents]`: the path and all its ancestors up to and including
the filesystem root.  Structural recursion on the path length. -/
def ancestorsAux : Nat → DPath → List DPath
  | 0, p => [p]
  | n + 1, p => p :: ancestorsAux n (pathParent p)

def ancestors (p : DPath) : List DPath := ancestorsAux p.length p

/-- `Path.stem`: the final component without its suffix.  Mirrors
`pathlib`: the suffix is the part from the last dot, provided that dot is
neither the first nor the last character of the name. -/
def lastDotIdx (cs : List Char) : Option Nat :=
  match cs with
  | [] => none
  | c :: t =>
    match lastDotIdx t with
    | some i => some (i + 1)
    | none => if c = '.' then some 0 else none

def pathStem (name : String) : String :=
  match lastDotIdx name.data with
  | some i => if 0 < i ∧ i < name.data.length - 1 then ⟨name.data.take i⟩ else name
  | none => name

/-- `compute_folder_levels_up`'s upward walk: collect `cur.name` and move
to the parent until the filesystem root (whose own parent equals itself)
is reached; the root contributes its empty name.  Structural recursion on
the exact path length. -/
def folderNamesUpAux : Nat → DPath → List String
  | 0, _ => [""]
  | n + 1, p => pathName p :: folderNamesUpAux n (pathParent p)

/-- `compute_folder_levels_up(md_path)`: parent-directory names from the
file upward, empty names filtered out. -/
def compute_folder_levels_up (mdPath : DPath) : List String :=
  let par := pathParent mdPath
  (folderNamesUpAux par.length par).filter (fun x => x ≠ "")

/-- `compute_root_parts_down(base, md_parent)`: the relative parts of
`md_parent` with respect to `base`; empty when `md_parent` is not under
`base` (`relative_to` raising is caught and mapped to `[]`). -/
def compute_root_parts_down (base mdParent : DPath) : List String :=
  if base.isPrefixOf mdParent then mdParent.drop base.length else []

/-- `find_anchor_by_name`'s upward scan: first ancestor of the file's
directory named `anchorName`, stopping (exclusively) at the parent of the
run root. -/
def anchorScan (ebParent : DPath) (anchorName : String) : List DPath → Option DPath
  | [] => none
  | a :: t =>
    if a = ebParent then none
    else if pathName a = anchorName then some a
    else anchorScan ebParent anchorName t

def find_anchor_by_name (execBase mdPath : DPath) (anchorName : String) : Option DPath :=
  anchorScan (pathParent execBase) anchorName (ancestors (pathParent mdPath))

/-- `is_excluded(md_path, exclude_folders)`: some ancestor directory name
(including ancestors above the run root) matches some exclusion glob. -/
def is_excluded (mdPath : DPath) (excludeFolders : List String) : Bool :=
  let parts := (ancestors (pathParent mdPath)).map pathName
  excludeFolders.any (fun pat => parts.any (fun name => fnmatchB name pat))

/-- `nearest_named_ancestor(dir_path, names)`. -/
def nearest_named_ancestor (dirPath : DPath) (names : List String) : Option DPath :=
  (ancestors dirPath).find? (fun d => names.contains (pathName d))

/-- `has_excluded_child_folder(dir_path, exclude_folders)`, taking the
directory's immediate child-directory names as input (the model's view of
`dir_path.iterdir()`). -/
def has_excluded_child_folder (childNames : List String) (excludeFolders : List String) : Bool :=
  excludeFolders.any (fun pat => childNames.any (fun name => fnmatchB name pat))

/- ===================== placeholder substitution ===================== -/

/-- The sentinel literals of the rule grammar. -/
def SENTINEL_EMPTY : String := "=leer="

def KEEP_TOKEN : String := "%wert%"

/-- The per-document path context threaded through substitution
(`exec_base` and `file_name` are passed in the source but unused by
`_subst_scalar`, so the model omits them). -/
structure Ctx where
  exec_root_name : String
  folder_levels_up : List String
  root_parts_down : List String
  file_date : String
  file_stem : String

/-- `repl_up` inside `_subst_scalar`: `%folderN%` resolution with
fallback to level 0, or `""` when there are no levels at all. -/
def repl_up (levels : List String) (idx : Nat) : String :=
  if levels.isEmpty then ""
  else if idx < levels.length then levels.getD idx ""
  else levels.getD 0 ""

/-- `repl_down` inside `_subst_scalar`: `%rootN%` resolution; `N = 0`,
an empty parts list, and an out-of-range index all fall back to the base
directory's name. -/
def repl_down (rootName : String) (parts : List String) (idx : Nat) : String :=
  if idx = 0 then rootName
  else if parts.isEmpty then rootName
  else if idx - 1 < parts.length then parts.getD (idx - 1) ""
  else rootName

/-- `_subst_scalar`: sentinel recognition, then the fixed chain of
literal replacements, then the `%folderN%` pass, then the `%rootN%`
pass. -/
def subst_scalar (val : String) (ctx : Ctx) : Val :=
  if val = SENTINEL_EMPTY then .vnull
  else if val = KEEP_TOKEN then .keep
  else
    let out := pyReplace val "%datum%" ctx.file_date
    let out := pyReplace out "%date%" ctx.file_date
    let out := pyReplace out "%data%" ctx.file_stem
    let out := pyReplace out "%folder%" ctx.exec_root_name
    let out := pyReplace out "%root0%" ctx.exec_root_name
    let out := regexSubNum "%folder" (repl_up ctx.folder_levels_up) out
    let out := regexSubNum "%root" (repl_down ctx.exec_root_name ctx.root_parts_down) out
    .str out

mutual

/-- `apply_template`: structural walk of a rule value.  Mapping entries
whose resolved value is `None` become the empty string; sequence elements
resolving to `None` or to the keep marker are dropped; non-string,
non-container scalars pass through unchanged. -/
def apply_template (template : Val) (ctx : Ctx) : Val :=
  match template with
  | .map entries => .map (applyMapEntries entries ctx)
  | .list items => .list (applyListItems items ctx)
  | .str s => subst_scalar s ctx
  | other => other

/-- The mapping branch of `apply_template`.  The source assigns into a
fresh dict whose keys come from a parsed YAML mapping and are therefore
unique, so sequential assignment builds the list in entry order. -/
def applyMapEntries (entries : List (String × Val)) (ctx : Ctx) : Dict :=
  match entries with
  | [] => []
  | (k, v) :: t =>
    let newV := apply_template v ctx
    (k, if newV.isNull then .str "" else newV) :: applyMapEntries t ctx

/-- The sequence branch of `apply_template`. -/
def applyListItems (items : List Val) (ctx : Ctx) : List Val :=
  match items with
  | [] => []
  | v :: t =>
    let newItem := apply_template v ctx
    if newItem.isNull then applyListItems t ctx
    else if newItem.isKeep then applyListItems t ctx
    else newItem :: applyListItems t ctx

end

/- ===================== rename resolution and reconciliation ===================== -/

/-- `'/' in k` and `k.split("/", 1)` followed by `strip()` on both
halves. -/
def splitSlash1 (k : String) : Option (String × String) :=
  match k.data.findIdx? (fun c => c = '/') with
  | none => none
  | some i => some (pyStrip ⟨k.data.take i⟩, pyStrip ⟨k.data.drop (i + 1)⟩)

/-- One step of the `resolve_renames` loop, acting on the accumulated
`(out, drop_sources)` pair. -/
def renameStep (existing : Dict) (acc : Dict × List String) (kv : String × Val) :
    Dict × List String :=
  match splitSlash1 kv.1 with
  | some (src, dst) =>
    let drops := acc.2 ++ [src]
    if kv.2.isKeep then
      match dictLookup existing src with
      | some w => (dictInsert acc.1 dst w, drops)
      | none =>
        match dictLookup existing dst with
        | some w => (dictInsert acc.1 dst w, drops)
        | none => (acc.1, drops)
    else (dictInsert acc.1 dst kv.2, drops)
  | none => (dictInsert acc.1 kv.1 kv.2, acc.2)

/-- `resolve_renames(applied, existing)`: interpret `OLD/NEW` keys,
transferring `existing[OLD]` (fallback `existing[NEW]`) to key `NEW` for
keep-marked values, and record every `OLD` for removal.  `drop_sources`
is a set in the source; the model keeps the (possibly repetitive) list
and only ever tests membership. -/
def resolve_renames (applied : Dict) (existing : Dict) : Dict × List String :=
  applied.foldl (renameStep existing) ([], [])

/-- `should_keep_extra_key(key, keep_patterns)`. -/
def should_keep_extra_key (key : String) (keepPatterns : List String) : Bool :=
  keepPatterns.any (fun pat => fnmatchB key pat)

/-- One step of `build_result`'s first loop (template keys in order):
keep-marked fields copy the existing value or are skipped entirely,
other fields take the resolved value. -/
def buildStep1 (existing : Dict) (result : Dict) (kv : String × Val) : Dict :=
  if kv.2.isKeep then
    match dictLookup existing kv.1 with
    | some w => dictInsert result kv.1 w
    | none => result
  else dictInsert result kv.1 kv.2

/-- One step of the `merge`-mode second loop: append existing fields not
already present. -/
def buildStepMerge (result : Dict) (kv : String × Val) : Dict :=
  if (dictLookup result kv.1).isSome then result else dictInsert result kv.1 kv.2

/-- One step of the `strict`-mode keep-list loop. -/
def buildStepStrict (keepExtra : List String) (result : Dict) (kv : String × Val) : Dict :=
  if (dictLookup result kv.1).isNone && should_keep_extra_key kv.1 keepExtra then
    dictInsert result kv.1 kv.2
  else result

/-- `build_result(existing, applied, key_mode, keep_extra)`: the final
frontmatter in template order, then merge leftovers or strict keep-list
survivors in existing order. -/
def build_result (existing applied : Dict) (keyMode : String) (keepExtra : List String) :
    Dict :=
  let result := applied.foldl (buildStep1 existing) []
  if keyMode = "merge" then existing.foldl buildStepMerge result
  else if keepExtra.isEmpty then result
  else existing.foldl (buildStepStrict keepExtra) result

/-- The `existing2` comprehension in `process_md`: the existing metadata
with all recorded rename-source keys removed (`if k not in drop_sources`). -/
def exMinus (existing : Dict) (drops : List String) : Dict :=
  existing.filter (fun kv => !(drops.contains kv.1))

/-- The composite data-level transformation of `process_md` after
substitution: rename resolution, removal of renamed-away source keys
from the existing metadata, and reconciliation. -/
def reconcile (applied existing : Dict) (keyMode : String) (keepExtra : List String) :
    Dict :=
  let rr := resolve_renames applied existing
  build_result (exMinus existing rr.2) rr.1 keyMode keepExtra

/- ===================== YAML codec (fragment model) ===================== -/

/-- Characters of a plain (unquoted) scalar in the modelled fragment. -/
def plainChar (c : Char) : Bool :=
  c.isAlphanum || c = '-' || c = '_' || c = ' '

/-- Lower-casing on the character list (`str.lower` for ASCII). -/
def strLower (s : String) : String := ⟨s.data.map Char.toLower⟩

/-- Words the YAML 1.1 resolver would turn into booleans or null, which
`safe_dump` therefore quotes; excluded from the plain fragment. -/
def reservedWord (s : String) : Bool :=
  ["true", "false", "null", "yes", "no", "on", "off", "y", "n"].contains (strLower s)

/-- A scalar that `yaml.safe_dump` emits unquoted as itself and
`yaml.safe_load` reads back as the same string: non-empty, starts with a
letter, only word characters, spaces, `-` and `_`, no trailing space,
and not a resolver keyword. -/
def plainScalar (s : String) : Bool :=
  match s.data with
  | [] => false
  | c :: _ =>
    c.isAlpha && s.data.all plainChar && (s.data.getLastD 'x' != ' ') && !reservedWord s

/-- `yaml.safe_dump` of one value, on the modelled fragment. -/
def dumpVal : Val → Option String
  | .str s => if plainScalar s then some s else none
  | _ => none

/-- `yaml.safe_dump(data, sort_keys=False)` of a flat mapping in the
modelled fragment: one `key: value` line per entry, in order. -/
def dumpLines : Dict → Option String
  | [] => some ""
  | (k, v) :: t =>
    match dumpVal v, dumpLines t with
    | some vs, some rest =>
      if plainScalar k then some (k ++ ": " ++ vs ++ "\n" ++ rest) else none
    | _, _ => none

def dumpFm (d : Dict) : Option String :=
  if d.isEmpty then none else dumpLines d

/-- `dump_frontmatter(data)`: the delimited metadata block followed by a
blank line.  Partial because the serializer is modelled on the plain
fragment only. -/
def dump_frontmatter (d : Dict) : Option String :=
  (dumpFm d).map (fun payload => "---\n" ++ payload ++ "---\n\n")

/-- Split a line at the first `": "` (mapping-key separator of the
fragment). -/
def splitColonGo : List Char → List Char → Option (List Char × List Char)
  | [], _ => none
  | c :: cs, acc =>
    if c = ':' then
      match cs with
      | ' ' :: rest => some (acc.reverse, rest)
      | _ => none
    else splitColonGo cs (c :: acc)

def stripNLEnd (s : String) : String :=
  if s.data.getLastD 'x' = '\n' then ⟨s.data.dropLast⟩ else s

def parseLine (line : String) : Option (String × Val) :=
  match splitColonGo (stripNLEnd line).data [] with
  | some (k, v) =>
    if plainScalar ⟨k⟩ && plainScalar ⟨v⟩ then some (⟨k⟩, Val.str ⟨v⟩) else none
  | none => none

def parseFmGo : Dict → List String → Option Dict
  | acc, [] => some acc
  | acc, l :: t =>
    match parseLine l with
    | some kv => parseFmGo (dictInsert acc kv.1 kv.2) t
    | none => none

/-- `yaml.safe_load` of a frontmatter block, on the modelled fragment;
anything else (parse errors, non-mapping results) yields the empty
mapping, exactly as the source's fallback does. -/
def parseFm (s : String) : Dict :=
  match parseFmGo [] (splitLinesKeep s) with
  | some d => d
  | none => []

def FRONTMATTER_DELIM : String := "---"

/-- The closing-delimiter scan of `split_frontmatter` (a line stripping
to `---` or `...`), starting at line index 1. -/
def findEndIdx : List String → Nat → Option Nat
  | [], _ => none
  | l :: t, i =>
    if pyStrip l = FRONTMATTER_DELIM ∨ pyStrip l = "..." then some i
    else findEndIdx t (i + 1)

/-- `split_frontmatter(text)`: existing metadata (empty on any anomaly)
and body. -/
def split_frontmatter (text : String) : Dict × String :=
  if ¬ FRONTMATTER_DELIM.data.isPrefixOf text.data then ([], text)
  else
    let lines := splitLinesKeep text
    match lines with
    | [] => ([], text)
    | l0 :: rest =>
      if pyStrip l0 ≠ FRONTMATTER_DELIM then ([], text)
      else
        match findEndIdx rest 1 with
        | none => ([], text)
        | some endIdx =>
          let fmText := String.join ((lines.take endIdx).drop 1)
          let body := String.join (lines.drop (endIdx + 1))
          (parseFm fmText, body)

/-- The scalar text of a plain value (`str` payload, empty otherwise);
used to describe the lines `dumpLines` emits. -/
def valPlain : Val → String
  | .str s => s
  | _ => ""

/-- The serialized line of one mapping entry. -/
def lineOf (kv : String × Val) : String := kv.1 ++ ": " ++ valPlain kv.2 ++ "\n"

/-- The serialized lines of a flat mapping, in order. -/
def linesOf (d : Dict) : List String := d.map lineOf

/- ===================== settings and document processing ===================== -/

/-- The `Settings` dataclass with its defaults. -/
structure Settings where
  exclude_folders : List String :=
    [".git", "Python", "node_modules", ".obsidian", ".venv", "__pycache__"]
  key_mode : String := "strict"
  keep_extra_keys : List String := []
  base_root : Option String := none
  scope_under_base_root : Bool := false
  include_folders_by_name : List String := []
  selective_processing_active : Bool := false

/-- A markdown document as the processor sees it: its path, its current
content, and its creation date (the `get_creation_date` stat result,
an input of the model). -/
structure MDoc where
  path : DPath
  text : String
  date : String

/-- Python truthiness of `settings.base_root` (`None` and `""` are
falsy). -/
def baseRootActive (settings : Settings) : Bool :=
  match settings.base_root with
  | some s => s != ""
  | none => false

/-- The anchor directory `process_md` resolves when `base_root` is set. -/
def anchorOf (settings : Settings) (execBase : DPath) (mdPath : DPath) : Option DPath :=
  if baseRootActive settings then
    find_anchor_by_name execBase mdPath (settings.base_root.getD "")
  else none

/-- The effective base directory: the resolved anchor if any, else the
run root. -/
def baseOf (settings : Settings) (execBase : DPath) (mdPath : DPath) : DPath :=
  (anchorOf settings execBase mdPath).getD execBase

/-- The substitution context `process_md` builds for one document. -/
def ctxOf (settings : Settings) (execBase : DPath) (doc : MDoc) : Ctx :=
  let base := baseOf settings execBase doc.path
  { exec_root_name := pathName base
    folder_levels_up := compute_folder_levels_up doc.path
    root_parts_down := compute_root_parts_down base (pathParent doc.path)
    file_date := doc.date
    file_stem := pathStem (pathName doc.path) }

/-- Outcome of `process_md` on one document: the explicit
`ValueError("Template muss ein Mapping auf Top-Level sein.")`, a
no-write return (`False`: scope-skipped or unchanged), a write of new
content (`True`), or a value outside the modelled serializer
fragment. -/
inductive ProcOutcome where
  | errTemplate
  | noWrite
  | wrote (newContent : String)
  | outOfModel
deriving DecidableEq

/-- `process_md(md_path, template, exec_base, settings)`: read, split,
anchor-scope check, substitution, rename resolution, reconciliation,
serialisation, and conditional write. -/
def process_md (template : Val) (settings : Settings) (execBase : DPath) (doc : MDoc) :
    ProcOutcome :=
  let fm := split_frontmatter doc.text
  let existing := fm.1
  let body := fm.2
  if baseRootActive settings && settings.scope_under_base_root
      && (anchorOf settings execBase doc.path).isNone then
    .noWrite
  else
    match apply_template template (ctxOf settings execBase doc) with
    | .map appliedEntries =>
      let finalData := reconcile appliedEntries existing settings.key_mode settings.keep_extra_keys
      match dump_frontmatter finalData with
      | some fmStr =>
        let newContent := fmStr ++ lstripNL body
        if newContent = doc.text then .noWrite else .wrote newContent
      | none => .outOfModel
    | _ => .errTemplate

/- ===================== tree walk (run) ===================== -/

/-- Observable file-system effects of a run, in order. -/
inductive Event where
  | readF (p : DPath)
  | writeF (p : DPath) (content : String)
  | errorStop
  | modelStop
deriving DecidableEq

/-- What `run` produces: the effect trace, the `total` and `changed`
counters, and whether the run was aborted by an uncaught error. -/
structure RunResult where
  events : List Event
  total : Nat
  changed : Nat
  aborted : Bool
deriving DecidableEq

/-- The selective-processing filter of `run` (anchor allow-list plus the
direct-child exclusion rule); `childDirsOf` models `iterdir` restricted
to directories. -/
def selectionSkip (settings : Settings) (childDirsOf : DPath → List String) (mdPath : DPath) :
    Bool :=
  (settings.selective_processing_active && !settings.include_folders_by_name.isEmpty) &&
    (match nearest_named_ancestor (pathParent mdPath) settings.include_folders_by_name with
     | none => true
     | some anchorDir => has_excluded_child_folder (childDirsOf anchorDir) settings.exclude_folders)

/-- The traversal loop of `run` after configuration loading, over the
documents `root.rglob("*.md")` yields in order.  Exclusion and selection
skip a document before it is read; a surviving document is read, counted
in `total`, and possibly rewritten; the explicit template-shape
`ValueError` propagates and aborts the whole run. -/
def runLoop (template : Val) (settings : Settings) (execBase : DPath)
    (childDirsOf : DPath → List String) : List MDoc → RunResult
  | [] => ⟨[], 0, 0, false⟩
  | d :: ds =>
    if is_excluded d.path settings.exclude_folders then
      runLoop template settings execBase childDirsOf ds
    else if selectionSkip settings childDirsOf d.path then
      runLoop template settings execBase childDirsOf ds
    else
      match process_md template settings execBase d with
      | .errTemplate => ⟨[.readF d.path, .errorStop], 1, 0, true⟩
      | .outOfModel => ⟨[.readF d.path, .modelStop], 1, 0, true⟩
      | .noWrite =>
        let r := runLoop template settings execBase childDirsOf ds
        ⟨.readF d.path :: r.events, r.total + 1, r.changed, r.aborted⟩
      | .wrote nc =>
        let r := runLoop template settings execBase childDirsOf ds
        ⟨.readF d.path :: .writeF d.path nc :: r.events, r.total + 1, r.changed + 1, r.aborted⟩

/- ===================== reconciliation, characterized ===================== -/

/-- The output key an `applied` entry ends up under after rename
resolution: the `NEW` half for `OLD/NEW` keys, the key itself
otherwise. -/
def tgtOf (kv : String × Val) : String :=
  match splitSlash1 kv.1 with
  | some sd => sd.2
  | none => kv.1

/-- The recorded drop source of an entry, when it is a rename key. -/
def srcOf (kv : String × Val) : Option String :=
  (splitSlash1 kv.1).map Prod.fst

/-- All drop sources recorded by `resolve_renames` over a template
application. -/
def dropsOf (applied : Dict) : List String := applied.filterMap srcOf

/-- What `resolve_renames` contributes to its output for one entry. -/
def rrEntry (existing : Dict) (kv : String × Val) : Option (String × Val) :=
  match splitSlash1 kv.1 with
  | some sd =>
    if kv.2.isKeep then
      match dictLookup existing sd.1 with
      | some w => some (sd.2, w)
      | none =>
        match dictLookup existing sd.2 with
        | some w => some (sd.2, w)
        | none => none
    else some (sd.2, kv.2)
  | none => some kv

/-- What `build_result`'s first loop contributes for one entry. -/
def bEntry (existing : Dict) (kv : String × Val) : Option (String × Val) :=
  if kv.2.isKeep then (dictLookup existing kv.1).map (fun w => (kv.1, w))
  else some kv

/-- Rename resolution composed with the keep/skip walk, per entry. -/
def tEntry (applied existing : Dict) (kv : String × Val) : Option (String × Val) :=
  (rrEntry existing kv).bind (bEntry (exMinus existing (dropsOf applied)))

/-- The template-ordered part of the reconciled result. -/
def stageT (applied existing : Dict) : Dict :=
  applied.filterMap (tEntry applied existing)

/-- Which leftover existing fields the second loop appends, by mode. -/
def extraCond (keyMode : String) (keepExtra : List String) (k : String) : Bool :=
  if keyMode = "merge" then true
  else if keepExtra.isEmpty then false
  else should_keep_extra_key k keepExtra

/-- The appended leftover part of the reconciled result. -/
def stageX (applied existing : Dict) (keyMode : String) (keepExtra : List String) : Dict :=
  (exMinus existing (dropsOf applied)).filter
    (fun kv =>
      (dictLookup (stageT applied existing) kv.1).isNone &&
        extraCond keyMode keepExtra kv.1)

/-- Reconstruction of `build_result` following the specification's own
wording (§4.5): the rule fields first, in Rule Set order, with
keep-marked fields copied from the existing metadata or skipped; then in
merge mode every pre-existing field not already present, in original
order, and in strict mode only the pre-existing fields matching a
keep-list glob, in existing order. -/
def build_result_spec (existing applied : Dict) (keyMode : String)
    (keepExtra : List String) : Dict :=
  let ruleFields := applied.filterMap (fun kv =>
    if kv.2.isKeep then (dictLookup existing kv.1).map (fun w => (kv.1, w)) else some kv)
  let leftovers :=
    if keyMode = "merge" then
      existing.filter (fun kv => (dictLookup ruleFields kv.1).isNone)
    else
      existing.filter (fun kv =>
        (dictLookup ruleFields kv.1).isNone && should_keep_extra_key kv.1 keepExtra)
  ruleFields ++ leftovers

/-- The path context of a document at `R/a/b/doc.md` processed with base
directory `R`, exactly as `process_md` computes it. -/
def ctxRab : Ctx :=
  { exec_root_name := pathName ["R"]
    folder_levels_up := compute_folder_levels_up ["R", "a", "b", "doc.md"]
    root_parts_down := compute_root_parts_down ["R"] (pathParent ["R", "a", "b", "doc.md"])
    file_date := "2024-05-05"
    file_stem := pathStem (pathName ["R", "a", "b", "doc.md"]) }

/-- A fixed concrete substitution context used by witness theorems. -/
def tctxW : Ctx :=
  { exec_root_name := "R"
    folder_levels_up := ["b", "a", "R"]
    root_parts_down := ["a", "b"]
    file_date := "2024-05-05"
    file_stem := "doc" }

/- ===================== dictionary lemmas ===================== -/

theorem dictLookup_append (a b : Dict) (k : String) :
    dictLookup (a ++ b) k =
      match dictLookup a k with
      | some w => some w
      | none => dictLookup b k := by
  induction a with
  | nil => simp [dictLookup]
  | cons kv t ih =>
    by_cases h : kv.1 = k <;> simp [dictLookup, h, ih]

theorem dictLookup_eq_none_iff (d : Dict) (k : String) :
    dictLookup d k = none ↔ k ∉ dictKeys d := by
  induction d with
  | nil => simp [dictLookup, dictKeys]
  | cons kv t ih =>
    by_cases h : kv.1 = k
    · subst h
      simp [dictLookup, dictKeys]
    · have h' : ¬ k = kv.1 := fun hh => h hh.symm
      simp [dictLookup, dictKeys, h, h', ih]

theorem dictInsert_eq_append (d : Dict) (k : String) (v : Val)
    (h : dictLookup d k = none) : dictInsert d k v = d ++ [(k, v)] := by
  induction d with
  | nil => simp [dictInsert]
  | cons kv t ih =>
    by_cases hk : kv.1 = k
    · simp [dictLookup, hk] at h
    · simp [dictLookup, hk] at h
      simp [dictInsert, hk, ih h]

theorem dictLookup_isSome_of_mem (d : Dict) (kv : String × Val) (h : kv ∈ d) :
    (dictLookup d kv.1).isSome := by
  induction d with
  | nil => simp at h
  | cons kv' t ih =>
    simp only [List.mem_cons] at h
    by_cases hk : kv'.1 = kv.1
    · simp [dictLookup, hk]
    · rcases h with h | h
      · subst h
        exact absurd rfl hk
      · simp [dictLookup, hk, ih h]

theorem mem_of_dictLookup_eq_some (d : Dict) (k : String) (w : Val)
    (h : dictLookup d k = some w) : (k, w) ∈ d := by
  induction d with
  | nil => simp [dictLookup] at h
  | cons kv t ih =>
    by_cases hk : kv.1 = k
    · simp only [dictLookup, if_pos hk] at h
      have hkv : kv = (k, w) := by
        cases kv
        simp_all
      rw [hkv]
      exact List.mem_cons_self _ _
    · simp only [dictLookup, if_neg hk] at h
      exact List.mem_cons_of_mem _ (ih h)

theorem dictKeys_filter (d : Dict) (p : String → Bool) :
    dictKeys (d.filter (fun kv => p kv.1)) = (dictKeys d).filter p := by
  unfold dictKeys
  induction d with
  | nil => rfl
  | cons kv t ih =>
    by_cases hp : p kv.1 <;> simp [List.filter_cons, hp, ih]

theorem dictLookup_filter (d : Dict) (p : String → Bool) (k : String) :
    dictLookup (d.filter (fun kv => p kv.1)) k =
      if p k then dictLookup d k else none := by
  induction d with
  | nil => simp [dictLookup]
  | cons kv t ih =>
    by_cases hp : p kv.1
    · by_cases hk : kv.1 = k
      · subst hk
        simp [List.filter, hp, dictLookup, ih]
      · simp [List.filter, hp, dictLookup, hk, ih]
    · by_cases hk : kv.1 = k
      · subst hk
        simp [List.filter, hp, dictLookup, ih]
      · simp [List.filter, hp, dictLookup, hk, ih]

theorem rrEntry_key (E : Dict) (kv : String × Val) (r : String × Val)
    (h : rrEntry E kv = some r) : r.1 = tgtOf kv := by
  unfold rrEntry at h
  unfold tgtOf
  cases hs : splitSlash1 kv.1 with
  | none =>
    rw [hs] at h
    simp at h
    simp [← h]
  | some sd =>
    rw [hs] at h
    cases hk : kv.2.isKeep with
    | false => simp [hk] at h; simp [← h]
    | true =>
      simp only [hk, if_pos] at h
      cases h1 : dictLookup E sd.1 with
      | some w => simp [h1] at h; simp [← h]
      | none =>
        cases h2 : dictLookup E sd.2 with
        | some w => simp [h1, h2] at h; simp [← h]
        | none => simp [h1, h2] at h

theorem bEntry_key (E : Dict) (kv : String × Val) (r : String × Val)
    (h : bEntry E kv = some r) : r.1 = kv.1 := by
  unfold bEntry at h
  cases hk : kv.2.isKeep with
  | false =>
    simp [hk] at h
    simp [← h]
  | true =>
    simp only [hk, if_pos] at h
    cases h1 : dictLookup E kv.1 with
    | some w => simp [h1] at h; simp [← h]
    | none => simp [h1] at h

theorem renameStep_eq (E : Dict) (acc : Dict × List String) (kv : String × Val) :
    renameStep E acc kv =
      ((match rrEntry E kv with
        | some r => dictInsert acc.1 r.1 r.2
        | none => acc.1),
       (match splitSlash1 kv.1 with
        | some sd => acc.2 ++ [sd.1]
        | none => acc.2)) := by
  unfold renameStep rrEntry
  cases hs : splitSlash1 kv.1 with
  | none => simp
  | some sd =>
    cases hk : kv.2.isKeep with
    | false => simp [hk]
    | true =>
      cases h1 : dictLookup E sd.1 with
      | some w => simp [hk, h1]
      | none =>
        cases h2 : dictLookup E sd.2 with
        | some w => simp [hk, h1, h2]
        | none => simp [hk, h1, h2]

theorem resolve_snd_aux (E : Dict) (A : Dict) :
    ∀ acc : Dict × List String,
      (A.foldl (renameStep E) acc).2 = acc.2 ++ dropsOf A := by
  induction A with
  | nil => intro acc; simp [dropsOf]
  | cons kv t ih =>
    intro acc
    rw [List.foldl_cons, renameStep_eq, ih]
    unfold dropsOf srcOf
    cases hs : splitSlash1 kv.1 with
    | none => simp [hs, dropsOf, srcOf]
    | some sd => simp [hs, dropsOf, srcOf]

theorem resolve_fst_aux (E : Dict) (A : Dict) :
    ∀ (out : Dict) (drops : List String),
      (A.map tgtOf).Nodup → (∀ kv ∈ A, tgtOf kv ∉ dictKeys out) →
      (A.foldl (renameStep E) (out, drops)).1 = out ++ A.filterMap (rrEntry E) := by
  induction A with
  | nil => intro out drops _ _; simp
  | cons kv t ih =>
    intro out drops hnd hdis
    rw [List.foldl_cons, renameStep_eq]
    have hndt : (t.map tgtOf).Nodup := by
      simp only [List.map_cons, List.nodup_cons] at hnd
      exact hnd.2
    have hhead : tgtOf kv ∉ t.map tgtOf := by
      simp only [List.map_cons, List.nodup_cons] at hnd
      exact hnd.1
    cases hr : rrEntry E kv with
    | none =>
      simp only [hr]
      rw [ih out _ hndt (fun kv' h => hdis kv' (List.mem_cons_of_mem _ h))]
      simp [List.filterMap_cons, hr]
    | some r =>
      simp only [hr]
      have hkey : r.1 = tgtOf kv := rrEntry_key E kv r hr
      have hnone : dictLookup out r.1 = none := by
        rw [hkey, dictLookup_eq_none_iff]
        exact hdis kv (List.mem_cons_self _ _)
      have hins : dictInsert out r.1 r.2 = out ++ [r] := by
        rw [dictInsert_eq_append out r.1 r.2 hnone]
      rw [hins]
      have hdis' : ∀ kv' ∈ t, tgtOf kv' ∉ dictKeys (out ++ [r]) := by
        intro kv' hmem
        simp only [dictKeys, List.map_append, List.mem_append, List.map_cons]
        rintro (h | h)
        · exact hdis kv' (List.mem_cons_of_mem _ hmem) h
        · simp at h
          rw [hkey] at h
          exact hhead (h ▸ List.mem_map_of_mem tgtOf hmem)
      rw [ih (out ++ [r]) _ hndt hdis']
      simp [List.filterMap_cons, hr]

theorem resolve_renames_eq (A E : Dict) (hnd : (A.map tgtOf).Nodup) :
    resolve_renames A E = (A.filterMap (rrEntry E), dropsOf A) := by
  unfold resolve_renames
  have h1 := resolve_fst_aux E A [] [] hnd (by intro kv _; simp [dictKeys])
  have h2 := resolve_snd_aux E A ([], [])
  simp only [List.nil_append] at h1 h2
  exact Prod.ext h1 h2

theorem buildStep1_eq (E : Dict) (res : Dict) (kv : String × Val) :
    buildStep1 E res kv =
      match bEntry E kv with
      | some r => dictInsert res r.1 r.2
      | none => res := by
  unfold buildStep1 bEntry
  cases hk : kv.2.isKeep with
  | false => simp [hk]
  | true =>
    cases h1 : dictLookup E kv.1 with
    | some w => simp [hk, h1]
    | none => simp [hk, h1]

theorem build1_aux (E : Dict) (A2 : Dict) :
    ∀ res : Dict,
      (dictKeys A2).Nodup → (∀ kv ∈ A2, kv.1 ∉ dictKeys res) →
      A2.foldl (buildStep1 E) res = res ++ A2.filterMap (bEntry E) := by
  induction A2 with
  | nil => intro res _ _; simp
  | cons kv t ih =>
    intro res hnd hdis
    rw [List.foldl_cons, buildStep1_eq]
    have hndt : (dictKeys t).Nodup := by
      simp only [dictKeys, List.map_cons, List.nodup_cons] at hnd
      exact hnd.2
    have hhead : kv.1 ∉ dictKeys t := by
      simp only [dictKeys, List.map_cons, List.nodup_cons] at hnd
      exact hnd.1
    cases hr : bEntry E kv with
    | none =>
      simp only [hr]
      rw [ih res hndt (fun kv' h => hdis kv' (List.mem_cons_of_mem _ h))]
      simp [List.filterMap_cons, hr]
    | some r =>
      simp only [hr]
      have hkey : r.1 = kv.1 := bEntry_key E kv r hr
      have hnone : dictLookup res r.1 = none := by
        rw [hkey, dictLookup_eq_none_iff]
        exact hdis kv (List.mem_cons_self _ _)
      rw [dictInsert_eq_append res r.1 r.2 hnone]
      have hdis' : ∀ kv' ∈ t, kv'.1 ∉ dictKeys (res ++ [r]) := by
        intro kv' hmem
        simp only [dictKeys, List.map_append, List.mem_append, List.map_cons]
        rintro (h | h)
        · exact hdis kv' (List.mem_cons_of_mem _ hmem) h
        · simp at h
          rw [hkey] at h
          apply hhead
          rw [← h]
          exact List.mem_map_of_mem Prod.fst hmem
      rw [ih (res ++ [r]) hndt hdis']
      simp [List.filterMap_cons, hr]

theorem mergeFold_aux (ex : Dict) :
    ∀ res : Dict,
      (dictKeys ex).Nodup →
      ex.foldl buildStepMerge res =
        res ++ ex.filter (fun kv => (dictLookup res kv.1).isNone) := by
  induction ex with
  | nil => intro res _; simp
  | cons kv t ih =>
    intro res hnd
    have hndt : (dictKeys t).Nodup := by
      simp only [dictKeys, List.map_cons, List.nodup_cons] at hnd
      exact hnd.2
    have hhead : kv.1 ∉ dictKeys t := by
      simp only [dictKeys, List.map_cons, List.nodup_cons] at hnd
      exact hnd.1
    rw [List.foldl_cons]
    cases hl : dictLookup res kv.1 with
    | some w =>
      have hstep : buildStepMerge res kv = res := by
        unfold buildStepMerge
        simp [hl]
      rw [hstep, ih res hndt]
      simp [List.filter_cons, hl]
    | none =>
      have hstep : buildStepMerge res kv = res ++ [(kv.1, kv.2)] := by
        unfold buildStepMerge
        simp [hl, dictInsert_eq_append res kv.1 kv.2 hl]
      rw [hstep, ih _ hndt]
      have hfc : t.filter (fun kv' => (dictLookup (res ++ [(kv.1, kv.2)]) kv'.1).isNone) =
          t.filter (fun kv' => (dictLookup res kv'.1).isNone) := by
        apply List.filter_congr
        intro kv' hmem
        rw [dictLookup_append]
        cases hl' : dictLookup res kv'.1 with
        | some w => simp
        | none =>
          have hne : kv.1 ≠ kv'.1 := by
            intro hh
            apply hhead
            rw [hh]
            exact List.mem_map_of_mem Prod.fst hmem
          simp [dictLookup, hne]
      rw [hfc]
      simp [List.filter_cons, hl]

theorem strictFold_aux (kx : List String) (ex : Dict) :
    ∀ res : Dict,
      (dictKeys ex).Nodup →
      ex.foldl (buildStepStrict kx) res =
        res ++ ex.filter
          (fun kv => (dictLookup res kv.1).isNone && should_keep_extra_key kv.1 kx) := by
  induction ex with
  | nil => intro res _; simp
  | cons kv t ih =>
    intro res hnd
    have hndt : (dictKeys t).Nodup := by
      simp only [dictKeys, List.map_cons, List.nodup_cons] at hnd
      exact hnd.2
    have hhead : kv.1 ∉ dictKeys t := by
      simp only [dictKeys, List.map_cons, List.nodup_cons] at hnd
      exact hnd.1
    rw [List.foldl_cons]
    cases hcond : (dictLookup res kv.1).isNone && should_keep_extra_key kv.1 kx with
    | false =>
      have hstep : buildStepStrict kx res kv = res := by
        unfold buildStepStrict
        simp [hcond]
      rw [hstep, ih res hndt]
      simp [List.filter_cons, hcond]
    | true =>
      have hl : dictLookup res kv.1 = none := by
        have := (Bool.and_eq_true _ _).mp hcond
        simpa [Option.isNone_iff_eq_none] using this.1
      have hstep : buildStepStrict kx res kv = res ++ [(kv.1, kv.2)] := by
        unfold buildStepStrict
        simp [hcond, dictInsert_eq_append res kv.1 kv.2 hl]
      rw [hstep, ih _ hndt]
      have hfc : t.filter
            (fun kv' => (dictLookup (res ++ [(kv.1, kv.2)]) kv'.1).isNone &&
              should_keep_extra_key kv'.1 kx) =
          t.filter
            (fun kv' => (dictLookup res kv'.1).isNone && should_keep_extra_key kv'.1 kx) := by
        apply List.filter_congr
        intro kv' hmem
        rw [dictLookup_append]
        cases hl' : dictLookup res kv'.1 with
        | some w => simp
        | none =>
          have hne : kv.1 ≠ kv'.1 := by
            intro hh
            apply hhead
            rw [hh]
            exact List.mem_map_of_mem Prod.fst hmem
          simp [dictLookup, hne]
      rw [hfc]
      simp [List.filter_cons, hcond]

/-- Keys of a `filterMap` whose per-entry key is given by `keyFn` form a
sublist of the `keyFn` image. -/
theorem keys_filterMap_sublist (A : Dict) (f : String × Val → Option (String × Val))
    (keyFn : String × Val → String)
    (hf : ∀ kv r, f kv = some r → r.1 = keyFn kv) :
    List.Sublist (dictKeys (A.filterMap f)) (A.map keyFn) := by
  induction A with
  | nil => simp [dictKeys]
  | cons kv t ih =>
    cases hr : f kv with
    | none =>
      simp only [List.filterMap_cons, hr, List.map_cons]
      exact ih.cons _
    | some r =>
      simp only [List.filterMap_cons, hr, List.map_cons, dictKeys]
      rw [hf kv r hr]
      exact ih.cons₂ _

/-- Lookup in a `filterMap` under a unique-keys discipline: the entry a
member produces is the one found. -/
theorem lookup_filterMap_unique (A : Dict) (f : String × Val → Option (String × Val))
    (keyFn : String × Val → String)
    (hf : ∀ kv r, f kv = some r → r.1 = keyFn kv)
    (hnd : (A.map keyFn).Nodup) (kv : String × Val) (hmem : kv ∈ A) :
    dictLookup (A.filterMap f) (keyFn kv) =
      match f kv with
      | some r => some r.2
      | none => none := by
  induction A with
  | nil => simp at hmem
  | cons kv' t ih =>
    have hndt : (t.map keyFn).Nodup := by
      simp only [List.map_cons, List.nodup_cons] at hnd
      exact hnd.2
    have hhead : keyFn kv' ∉ t.map keyFn := by
      simp only [List.map_cons, List.nodup_cons] at hnd
      exact hnd.1
    simp only [List.mem_cons] at hmem
    rcases hmem with hmem | hmem
    · subst hmem
      cases hr : f kv with
      | some r =>
        simp only [List.filterMap_cons, hr, dictLookup, hf kv r hr, if_pos]
      | none =>
        simp only [List.filterMap_cons, hr]
        exact (dictLookup_eq_none_iff _ _).mpr
          (fun hin => hhead ((keys_filterMap_sublist t f keyFn hf).subset hin))
    · have hne : keyFn kv' ≠ keyFn kv := by
        intro hh
        exact hhead (hh ▸ List.mem_map_of_mem keyFn hmem)
      cases hr : f kv' with
      | some r =>
        simp only [List.filterMap_cons, hr, dictLookup, hf kv' r hr, hne, if_neg]
        exact ih hndt hmem
      | none =>
        simp only [List.filterMap_cons, hr]
        exact ih hndt hmem

/-- `reconcile`, characterized: the template-ordered stage followed by
the mode-dependent leftover stage. -/
theorem keys_exMinus_nodup (E : Dict) (drops : List String)
    (hE : (dictKeys E).Nodup) : (dictKeys (exMinus E drops)).Nodup := by
  unfold exMinus dictKeys
  unfold dictKeys at hE
  exact hE.sublist ((List.filter_sublist _).map Prod.fst)

theorem reconcile_eq (A E : Dict) (m : String) (kx : List String)
    (h1 : (A.map tgtOf).Nodup) (hE : (dictKeys E).Nodup) :
    reconcile A E m kx = stageT A E ++ stageX A E m kx := by
  have hEk : (dictKeys (exMinus E (dropsOf A))).Nodup := keys_exMinus_nodup E _ hE
  have hA2nd : (dictKeys (A.filterMap (rrEntry E))).Nodup :=
    h1.sublist (keys_filterMap_sublist A (rrEntry E) tgtOf (rrEntry_key E))
  have hT : (A.filterMap (rrEntry E)).filterMap (bEntry (exMinus E (dropsOf A))) =
      stageT A E := by
    unfold stageT tEntry
    rw [List.filterMap_filterMap]
  unfold reconcile build_result
  rw [resolve_renames_eq A E h1]
  dsimp only
  rw [build1_aux (exMinus E (dropsOf A)) (A.filterMap (rrEntry E)) [] hA2nd
      (by intro kv _; simp [dictKeys]), List.nil_append, hT]
  by_cases hm : m = "merge"
  · rw [if_pos hm, mergeFold_aux _ _ hEk]
    unfold stageX
    congr 1
    apply List.filter_congr
    intro kv _
    simp [extraCond, hm]
  · rw [if_neg hm]
    cases hkx : kx.isEmpty with
    | true =>
      simp only [if_true]
      unfold stageX
      have hnil : (exMinus E (dropsOf A)).filter
          (fun kv => (dictLookup (stageT A E) kv.1).isNone && extraCond m kx kv.1) = [] := by
        apply List.filter_eq_nil_iff.mpr
        intro kv _
        simp [extraCond, hm, hkx]
      rw [hnil, List.append_nil]
    | false =>
      simp only [Bool.false_eq_true, if_false]
      rw [strictFold_aux kx _ _ hEk]
      unfold stageX
      congr 1
      apply List.filter_congr
      intro kv _
      simp [extraCond, hm, hkx]

theorem tEntry_key (A E : Dict) (kv : String × Val) (r : String × Val)
    (h : tEntry A E kv = some r) : r.1 = tgtOf kv := by
  unfold tEntry at h
  cases hrr : rrEntry E kv with
  | none =>
    rw [hrr] at h
    exact Option.noConfusion h
  | some r' =>
    rw [hrr] at h
    rw [bEntry_key _ r' r h]
    exact rrEntry_key E kv r' hrr

/-- Lookup in the template-ordered stage, through the entry that owns the
target key. -/
theorem lookup_stageT_eq (A E : Dict) (hnd : (A.map tgtOf).Nodup)
    (kv : String × Val) (hmem : kv ∈ A) :
    dictLookup (stageT A E) (tgtOf kv) =
      match tEntry A E kv with
      | some r => some r.2
      | none => none :=
  lookup_filterMap_unique A (tEntry A E) tgtOf (tEntry_key A E) hnd kv hmem

theorem keys_filter_sublist (d : Dict) (p : String × Val → Bool) :
    List.Sublist (dictKeys (d.filter p)) (dictKeys d) := by
  unfold dictKeys
  exact (List.filter_sublist _).map Prod.fst

theorem keys_stageX_subset (A E : Dict) (m : String) (kx : List String) :
    ∀ k ∈ dictKeys (stageX A E m kx), k ∈ dictKeys E := by
  intro k hk
  have h1 := (keys_filter_sublist (exMinus E (dropsOf A)) _).subset hk
  exact (keys_filter_sublist E _).subset h1

theorem keys_stageT_subset (A E : Dict) :
    ∀ k ∈ dictKeys (stageT A E), k ∈ A.map tgtOf := by
  intro k hk
  exact (keys_filterMap_sublist A (tEntry A E) tgtOf (tEntry_key A E)).subset hk

/- ===================== claim C3 ===================== -/

/-- C3: for every existing metadata mapping and rename-resolved Rule Set
application (both well-formed dicts, i.e. with unique keys), the final
field mapping built by reconciliation lists the Rule Set fields first in
Rule Set order, followed in merge mode by every pre-existing field not
already present (unchanged, in original relative order), and in strict
mode by exactly the pre-existing fields matching a keep-list glob, in
existing order. -/
theorem c3_build_order (existing applied : Dict) (keyMode : String)
    (keepExtra : List String)
    (hA : (dictKeys applied).Nodup) (hE : (dictKeys existing).Nodup) :
    build_result existing applied keyMode keepExtra =
      build_result_spec existing applied keyMode keepExtra := by
  unfold build_result build_result_spec
  dsimp only
  rw [build1_aux existing applied [] hA (by intro kv _; simp [dictKeys]),
    List.nil_append]
  have hlam : (fun kv : String × Val =>
      if kv.2.isKeep then (dictLookup existing kv.1).map (fun w => (kv.1, w)) else some kv) =
      bEntry existing := by
    funext kv
    rfl
  rw [hlam]
  by_cases hm : keyMode = "merge"
  · rw [if_pos hm, if_pos hm, mergeFold_aux _ _ hE]
  · rw [if_neg hm, if_neg hm]
    cases hkx : keepExtra.isEmpty with
    | true =>
      simp only [if_true]
      have hnil : existing.filter
          (fun kv => (dictLookup (applied.filterMap (bEntry existing)) kv.1).isNone &&
            should_keep_extra_key kv.1 keepExtra) = [] := by
        apply List.filter_eq_nil_iff.mpr
        intro kv _
        have : keepExtra = [] := List.isEmpty_iff.mp hkx
        simp [should_keep_extra_key, this]
      rw [hnil, List.append_nil]
    | false =>
      simp only [Bool.false_eq_true, if_false]
      rw [strictFold_aux keepExtra _ _ hE]

/-- C3 witness: the refinement instantiated at concrete inputs in both
modes. -/
theorem c3_build_order_witness :
    build_result [("a", Val.str "x"), ("b", Val.str "y")]
        [("t", Val.keep), ("a", Val.str "v")] "merge" [] =
      build_result_spec [("a", Val.str "x"), ("b", Val.str "y")]
        [("t", Val.keep), ("a", Val.str "v")] "merge" [] :=
  c3_build_order [("a", Val.str "x"), ("b", Val.str "y")]
    [("t", Val.keep), ("a", Val.str "v")] "merge" [] (by decide) (by decide)

/- ===================== claim C2 ===================== -/

/-- C2 counterexample: with Rule Set `{"OLD/NEW": %wert%, "OLD": "x"}`
and existing metadata `{OLD: v}`, the rename fires (`NEW` gets `v`), yet
the output still contains `OLD` (bound by the other rule entry), so the
claim's "the output never contains the key OLD" is false as stated. -/
theorem c2_counterexample :
    dictLookup (reconcile [("OLD/NEW", Val.keep), ("OLD", Val.str "x")]
        [("OLD", Val.str "v")] "strict" []) "NEW" = some (Val.str "v") ∧
    dictLookup (reconcile [("OLD/NEW", Val.keep), ("OLD", Val.str "x")]
        [("OLD", Val.str "v")] "strict" []) "OLD" = some (Val.str "x") :=
  ⟨rfl, rfl⟩

/-- C2 amended: for a Rule Set key `OLD/NEW` whose resolved value is the
keep-existing marker, provided no other Rule Set entry resolves to the
name `OLD` and the resolved target names are pairwise distinct, the
reconciled output binds `NEW` to the existing `OLD` value (with the
existing `NEW` value as second preference, omitted when neither exists)
and never contains `OLD`, under either key_mode. -/
theorem c2_rename_transfer (A E : Dict) (m : String) (kx : List String)
    (k0 src dst : String)
    (hk : (k0, Val.keep) ∈ A)
    (hsplit : splitSlash1 k0 = some (src, dst))
    (hnd : (A.map tgtOf).Nodup)
    (hsrc : src ∉ A.map tgtOf)
    (hE : (dictKeys E).Nodup)
    (hkeep : ∀ kv ∈ E, kv.2.isKeep = false) :
    dictLookup (reconcile A E m kx) src = none ∧
    dictLookup (reconcile A E m kx) dst =
      (match dictLookup E src with
       | some w => some w
       | none => dictLookup E dst) := by
  have htgt : tgtOf (k0, Val.keep) = dst := by
    unfold tgtOf
    rw [hsplit]
  have hsrcdrop : src ∈ dropsOf A := by
    unfold dropsOf
    exact List.mem_filterMap.mpr ⟨(k0, Val.keep), hk, by simp [srcOf, hsplit]⟩
  rw [reconcile_eq A E m kx hnd hE]
  have hTr := lookup_stageT_eq A E hnd (k0, Val.keep) hk
  rw [htgt] at hTr
  have hrr : rrEntry E (k0, Val.keep) =
      (match dictLookup E src with
       | some w => some (dst, w)
       | none =>
         match dictLookup E dst with
         | some w => some (dst, w)
         | none => none) := by
    unfold rrEntry
    rw [hsplit]
    rfl
  constructor
  · rw [dictLookup_append]
    have hT : dictLookup (stageT A E) src = none := by
      rw [dictLookup_eq_none_iff]
      intro hmem
      exact hsrc (keys_stageT_subset A E src hmem)
    rw [hT]
    rw [dictLookup_eq_none_iff]
    intro hmem
    have h1 := (keys_filter_sublist (exMinus E (dropsOf A)) _).subset hmem
    unfold exMinus dictKeys at h1
    rcases List.mem_map.mp h1 with ⟨kv, hkvf, hfst⟩
    have hpred : (dropsOf A).contains kv.1 = false := by
      have hb := List.of_mem_filter hkvf
      simpa using hb
    rw [hfst] at hpred
    have hnot : src ∉ dropsOf A := by simpa using hpred
    exact hnot hsrcdrop
  · rw [dictLookup_append]
    cases hes : dictLookup E src with
    | some w =>
      have hwk : w.isKeep = false := hkeep (src, w) (mem_of_dictLookup_eq_some E src w hes)
      have htE : tEntry A E (k0, Val.keep) = some (dst, w) := by
        unfold tEntry
        rw [hrr, hes]
        simp [bEntry, hwk]
      have hTs : dictLookup (stageT A E) dst = some w := by
        rw [hTr, htE]
      rw [hTs]
    | none =>
      cases hed : dictLookup E dst with
      | some w =>
        have hwk : w.isKeep = false := hkeep (dst, w) (mem_of_dictLookup_eq_some E dst w hed)
        have htE : tEntry A E (k0, Val.keep) = some (dst, w) := by
          unfold tEntry
          rw [hrr, hes, hed]
          simp [bEntry, hwk]
        have hTs : dictLookup (stageT A E) dst = some w := by
          rw [hTr, htE]
        rw [hTs]
      | none =>
        have htE : tEntry A E (k0, Val.keep) = none := by
          unfold tEntry
          rw [hrr, hes, hed]
          rfl
        have hTn : dictLookup (stageT A E) dst = none := by
          rw [hTr, htE]
        rw [hTn]
        show dictLookup (stageX A E m kx) dst = none
        rw [dictLookup_eq_none_iff]
        intro hmem
        exact (dictLookup_eq_none_iff E dst).mp hed (keys_stageX_subset A E m kx dst hmem)


/- ===================== claims C4 and C10 ===================== -/

theorem applyMapEntries_cons (k : String) (v : Val) (t : List (String × Val)) (ctx : Ctx) :
    applyMapEntries ((k, v) :: t) ctx =
      (k, if (apply_template v ctx).isNull = true then Val.str "" else apply_template v ctx)
        :: applyMapEntries t ctx := by
  rw [applyMapEntries.eq_def]

theorem applyMapEntries_append (a b : List (String × Val)) (ctx : Ctx) :
    applyMapEntries (a ++ b) ctx = applyMapEntries a ctx ++ applyMapEntries b ctx := by
  induction a with
  | nil => simp [applyMapEntries]
  | cons kv t ih =>
    cases kv
    simp [applyMapEntries, ih]

theorem Val.isNull_iff (v : Val) : v.isNull = true ↔ v = Val.vnull := by
  cases v <;> simp [Val.isNull]

theorem Val.isKeep_iff (v : Val) : v.isKeep = true ↔ v = Val.keep := by
  cases v <;> simp [Val.isKeep]

theorem applyListItems_cons_null (v : Val) (t : List Val) (ctx : Ctx)
    (hv : apply_template v ctx = Val.vnull) :
    applyListItems (v :: t) ctx = applyListItems t ctx := by
  rw [applyListItems.eq_def]
  dsimp only
  rw [hv]
  rfl

theorem applyListItems_cons_keep (v : Val) (t : List Val) (ctx : Ctx)
    (hv : apply_template v ctx = Val.keep) :
    applyListItems (v :: t) ctx = applyListItems t ctx := by
  rw [applyListItems.eq_def]
  dsimp only
  rw [hv]
  rfl

theorem applyListItems_cons_live (v : Val) (t : List Val) (ctx : Ctx)
    (h1 : apply_template v ctx ≠ Val.vnull) (h2 : apply_template v ctx ≠ Val.keep) :
    applyListItems (v :: t) ctx = apply_template v ctx :: applyListItems t ctx := by
  rw [applyListItems.eq_def]
  dsimp only
  have hn : (apply_template v ctx).isNull = false := by
    cases hh : (apply_template v ctx).isNull with
    | false => rfl
    | true => exact absurd ((Val.isNull_iff _).mp hh) h1
  have hk : (apply_template v ctx).isKeep = false := by
    cases hh : (apply_template v ctx).isKeep with
    | false => rfl
    | true => exact absurd ((Val.isKeep_iff _).mp hh) h2
  simp [hn, hk]

theorem applyListItems_append (a b : List Val) (ctx : Ctx) :
    applyListItems (a ++ b) ctx = applyListItems a ctx ++ applyListItems b ctx := by
  induction a with
  | nil => simp [applyListItems]
  | cons v t ih =>
    have hc : (v :: t) ++ b = v :: (t ++ b) := rfl
    by_cases h1 : apply_template v ctx = Val.vnull
    · rw [hc, applyListItems_cons_null v _ ctx h1, applyListItems_cons_null v t ctx h1, ih]
    · by_cases h2 : apply_template v ctx = Val.keep
      · rw [hc, applyListItems_cons_keep v _ ctx h2, applyListItems_cons_keep v t ctx h2, ih]
      · rw [hc, applyListItems_cons_live v _ ctx h1 h2,
          applyListItems_cons_live v t ctx h1 h2, ih]
        rfl

/-- C4: a rule value resolving to the force-empty marker becomes the
empty string when it is the value of a mapping entry, is dropped
entirely when it is an element of a sequence, and leaves the output
sequence exactly one element shorter than any non-dropped value in its
place would. -/
theorem c4_force_empty (ctx : Ctx) (pre post : List (String × Val))
    (items pest : List Val) (k : String) (v : Val)
    (hv : apply_template v ctx = Val.vnull) :
    apply_template (Val.map (pre ++ (k, v) :: post)) ctx =
      Val.map (applyMapEntries pre ctx ++ (k, Val.str "") :: applyMapEntries post ctx) ∧
    apply_template (Val.list (items ++ v :: pest)) ctx =
      apply_template (Val.list (items ++ pest)) ctx ∧
    (∀ w : Val, apply_template w ctx ≠ Val.vnull → apply_template w ctx ≠ Val.keep →
      (applyListItems (items ++ w :: pest) ctx).length =
        (applyListItems (items ++ v :: pest) ctx).length + 1) := by
  refine ⟨?_, ?_, ?_⟩
  · show Val.map (applyMapEntries (pre ++ (k, v) :: post) ctx) = _
    rw [applyMapEntries_append, applyMapEntries_cons, hv]
    simp [Val.isNull]
  · show Val.list (applyListItems (items ++ v :: pest) ctx) =
      Val.list (applyListItems (items ++ pest) ctx)
    rw [applyListItems_append, applyListItems_cons_null v pest ctx hv,
      applyListItems_append items pest ctx]
  · intro w h1 h2
    rw [applyListItems_append, applyListItems_append,
      applyListItems_cons_null v pest ctx hv,
      applyListItems_cons_live w pest ctx h1 h2]
    simp [List.length_append]
    omega

/-- C4 witness: the force-empty sentinel `=leer=` at concrete inputs:
empty string in a mapping, dropped element (and length one less than a
live value would give) in a sequence. -/
theorem c4_force_empty_witness :
    apply_template (Val.map [("a", Val.str "x"), ("e", Val.str "=leer=")]) tctxW =
      Val.map (applyMapEntries [("a", Val.str "x")] tctxW ++
        ("e", Val.str "") :: applyMapEntries [] tctxW) ∧
    apply_template (Val.list [Val.str "x", Val.str "=leer=", Val.str "y"]) tctxW =
      apply_template (Val.list [Val.str "x", Val.str "y"]) tctxW ∧
    (applyListItems [Val.str "x", Val.str "z", Val.str "y"] tctxW).length =
      (applyListItems [Val.str "x", Val.str "=leer=", Val.str "y"] tctxW).length + 1 := by
  have h := c4_force_empty tctxW [("a", Val.str "x")] []
    [Val.str "x"] [Val.str "y"] "e" (Val.str "=leer=") rfl
  exact ⟨h.1, h.2.1,
    h.2.2 (Val.str "z") (fun hh => Val.noConfusion hh) (fun hh => Val.noConfusion hh)⟩

/-- C10: a rule value that is null after parsing is treated by template
application exactly like the force-empty sentinel: it resolves to the
same marker the sentinel resolves to, a mapping entry with a null rule
value becomes the empty string, and a null element of a sequence rule
value is dropped from the output sequence. -/
theorem c10_null_like_force_empty (ctx : Ctx) (pre post : List (String × Val))
    (items pest : List Val) (k : String) :
    apply_template Val.vnull ctx = apply_template (Val.str "=leer=") ctx ∧
    apply_template (Val.map (pre ++ (k, Val.vnull) :: post)) ctx =
      Val.map (applyMapEntries pre ctx ++ (k, Val.str "") :: applyMapEntries post ctx) ∧
    apply_template (Val.list (items ++ Val.vnull :: pest)) ctx =
      apply_template (Val.list (items ++ pest)) ctx := by
  have hv : apply_template Val.vnull ctx = Val.vnull := rfl
  refine ⟨rfl, ?_, ?_⟩
  · show Val.map (applyMapEntries (pre ++ (k, Val.vnull) :: post) ctx) = _
    rw [applyMapEntries_append, applyMapEntries_cons, hv]
    simp [Val.isNull]
  · show Val.list (applyListItems (items ++ Val.vnull :: pest) ctx) =
      Val.list (applyListItems (items ++ pest) ctx)
    rw [applyListItems_append, applyListItems_cons_null _ _ _ hv,
      applyListItems_append items pest ctx]

/- ===================== claim C5 ===================== -/

/-- C5 counterexample: Rule Set `{"X": %wert%, "q/X": "z"}` and a
document with no existing `X` and no existing `q`: the claim's premises
hold (field `X` carries the keep marker, the metadata lacks `X` under
its own name and under the rename source name), yet the output contains
`X` (bound by the other rule entry `q/X`). -/
theorem c5_counterexample :
    dictLookup (reconcile [("X", Val.keep), ("q/X", Val.str "z")] [] "strict" []) "X"
      = some (Val.str "z") := rfl

/-- C5 amended: a Rule Set field `X` whose resolved value is the
keep-existing marker is absent from the reconciled output whenever the
existing metadata has no `X`, provided the Rule Set's resolved target
names are pairwise distinct (so no other entry — plain or rename — binds
`X`); it is never defaulted to an empty value, under either key_mode. -/
theorem c5_keep_omission (A E : Dict) (m : String) (kx : List String) (x0 : String)
    (hk : (x0, Val.keep) ∈ A)
    (hplain : splitSlash1 x0 = none)
    (hnd : (A.map tgtOf).Nodup)
    (hE : (dictKeys E).Nodup)
    (hEx : dictLookup E x0 = none) :
    dictLookup (reconcile A E m kx) x0 = none := by
  have htgt : tgtOf (x0, Val.keep) = x0 := by
    unfold tgtOf
    rw [hplain]
  rw [reconcile_eq A E m kx hnd hE, dictLookup_append]
  have hrr : rrEntry E (x0, Val.keep) = some (x0, Val.keep) := by
    unfold rrEntry
    rw [hplain]
  have hexm : dictLookup (exMinus E (dropsOf A)) x0 = none := by
    rw [dictLookup_eq_none_iff]
    intro hmem
    unfold exMinus at hmem
    exact (dictLookup_eq_none_iff E x0).mp hEx ((keys_filter_sublist E _).subset hmem)
  have htE : tEntry A E (x0, Val.keep) = none := by
    unfold tEntry
    rw [hrr]
    show bEntry (exMinus E (dropsOf A)) (x0, Val.keep) = none
    unfold bEntry
    simp [Val.isKeep, hexm]
  have hTn : dictLookup (stageT A E) x0 = none := by
    have hl := lookup_stageT_eq A E hnd (x0, Val.keep) hk
    rw [htgt] at hl
    rw [hl, htE]
  rw [hTn]
  show dictLookup (stageX A E m kx) x0 = none
  rw [dictLookup_eq_none_iff]
  intro hmem
  exact (dictLookup_eq_none_iff E x0).mp hEx (keys_stageX_subset A E m kx x0 hmem)

/-- C5 witness: the amended omission at a concrete input. -/
theorem c5_keep_omission_witness :
    dictLookup (reconcile [("X", Val.keep)] [("other", Val.str "o")] "strict" []) "X"
      = none :=
  c5_keep_omission [("X", Val.keep)] [("other", Val.str "o")] "strict" [] "X"
    (List.mem_singleton.mpr rfl) rfl (by decide) (by decide) rfl

/-- C2 witness: the amended rename transfer at a concrete input. -/
theorem c2_rename_transfer_witness :
    dictLookup (reconcile [("OLD/NEW", Val.keep)] [("OLD", Val.str "value1")] "merge" [])
        "OLD" = none ∧
    dictLookup (reconcile [("OLD/NEW", Val.keep)] [("OLD", Val.str "value1")] "merge" [])
        "NEW" = some (Val.str "value1") := by
  have h := c2_rename_transfer [("OLD/NEW", Val.keep)] [("OLD", Val.str "value1")]
    "merge" [] "OLD/NEW" "OLD" "NEW"
    (List.mem_singleton.mpr rfl) rfl (by decide) (by decide) (by decide)
    (by
      intro kv hmem
      rw [List.mem_singleton] at hmem
      subst hmem
      rfl)
  exact ⟨h.1, h.2⟩

/- ===================== claim C1: reconciliation idempotence ===================== -/

theorem dictLookup_exMinus (E : Dict) (drops : List String) (k : String)
    (hk : drops.contains k = false) :
    dictLookup (exMinus E drops) k = dictLookup E k := by
  unfold exMinus
  induction E with
  | nil => rfl
  | cons kv t ih =>
    rw [List.filter_cons]
    by_cases hd : drops.contains kv.1 = true
    · have hcond : (!(drops.contains kv.1)) = false := by rw [hd]; rfl
      rw [hcond]
      simp only [Bool.false_eq_true, if_false]
      rw [ih]
      have hne : kv.1 ≠ k := fun hh => by
        rw [hh, hk] at hd
        exact Bool.noConfusion hd
      show dictLookup t k = dictLookup (kv :: t) k
      rw [show dictLookup (kv :: t) k = if kv.1 = k then some kv.2 else dictLookup t k
        from rfl]
      rw [if_neg hne]
    · have hd' : drops.contains kv.1 = false := by
        cases hh : drops.contains kv.1 with
        | false => rfl
        | true => exact absurd hh hd
      have hcond : (!(drops.contains kv.1)) = true := by rw [hd']; rfl
      rw [hcond]
      simp only [if_true]
      by_cases hkk : kv.1 = k
      · rw [show dictLookup (kv :: List.filter (fun kv => !(drops.contains kv.1)) t) k
            = if kv.1 = k then some kv.2 else
              dictLookup (List.filter (fun kv => !(drops.contains kv.1)) t) k from rfl]
        rw [show dictLookup (kv :: t) k = if kv.1 = k then some kv.2 else dictLookup t k
          from rfl]
        rw [if_pos hkk, if_pos hkk]
      · rw [show dictLookup (kv :: List.filter (fun kv => !(drops.contains kv.1)) t) k
            = if kv.1 = k then some kv.2 else
              dictLookup (List.filter (fun kv => !(drops.contains kv.1)) t) k from rfl]
        rw [show dictLookup (kv :: t) k = if kv.1 = k then some kv.2 else dictLookup t k
          from rfl]
        rw [if_neg hkk, if_neg hkk, ih]

theorem mem_exMinus (E : Dict) (drops : List String) (kv : String × Val)
    (h : kv ∈ exMinus E drops) : kv ∈ E ∧ drops.contains kv.1 = false := by
  unfold exMinus at h
  refine ⟨List.mem_of_mem_filter h, ?_⟩
  have hp := List.of_mem_filter h
  simpa using hp

theorem mem_stageX (A E : Dict) (m : String) (kx : List String) (kv : String × Val)
    (h : kv ∈ stageX A E m kx) :
    kv ∈ exMinus E (dropsOf A) ∧
      (dictLookup (stageT A E) kv.1).isNone = true ∧
      extraCond m kx kv.1 = true := by
  unfold stageX at h
  refine ⟨List.mem_of_mem_filter h, ?_⟩
  have hp := List.of_mem_filter h
  exact ⟨(Bool.and_eq_true _ _).mp hp |>.1, (Bool.and_eq_true _ _).mp hp |>.2⟩

theorem keys_stageT_nodup (A E : Dict) (hnd : (A.map tgtOf).Nodup) :
    (dictKeys (stageT A E)).Nodup :=
  hnd.sublist (keys_filterMap_sublist A (tEntry A E) tgtOf (tEntry_key A E))

theorem keys_stageX_nodup (A E : Dict) (m : String) (kx : List String)
    (hE : (dictKeys E).Nodup) : (dictKeys (stageX A E m kx)).Nodup := by
  have h1 : (dictKeys (exMinus E (dropsOf A))).Nodup := keys_exMinus_nodup E _ hE
  exact h1.sublist (keys_filter_sublist _ _)

/-- The keys of the reconciled output form a duplicate-free list. -/
theorem keys_F_nodup (A E : Dict) (m : String) (kx : List String)
    (hnd : (A.map tgtOf).Nodup) (hE : (dictKeys E).Nodup) :
    (dictKeys (stageT A E ++ stageX A E m kx)).Nodup := by
  unfold dictKeys
  rw [List.map_append]
  rw [List.nodup_append]
  refine ⟨keys_stageT_nodup A E hnd, keys_stageX_nodup A E m kx hE, ?_⟩
  intro k hkT hkX
  rcases List.mem_map.mp hkX with ⟨kv, hkv, hfst⟩
  have hp := (mem_stageX A E m kx kv hkv).2.1
  rw [hfst] at hp
  have hs : (dictLookup (stageT A E) k).isSome := by
    rcases List.mem_map.mp hkT with ⟨kv', hkv', hfst'⟩
    rw [← hfst']
    exact dictLookup_isSome_of_mem _ kv' hkv'
  rw [Option.isNone_iff_eq_none] at hp
  rw [hp] at hs
  exact Bool.noConfusion hs

/-- No value of the reconciled output is the keep marker, provided the
existing metadata is keep-free. -/
theorem F_keepFree (A E : Dict) (m : String) (kx : List String)
    (hEk : ∀ kv ∈ E, kv.2.isKeep = false) :
    ∀ kv ∈ stageT A E ++ stageX A E m kx, kv.2.isKeep = false := by
  intro kv hkv
  rcases List.mem_append.mp hkv with h | h
  · unfold stageT at h
    rcases List.mem_filterMap.mp h with ⟨a, _, hta⟩
    unfold tEntry at hta
    cases hrr : rrEntry E a with
    | none => rw [hrr] at hta; exact Option.noConfusion hta
    | some r' =>
      rw [hrr] at hta
      have hta' : bEntry (exMinus E (dropsOf A)) r' = some kv := hta
      unfold bEntry at hta'
      cases hkp : r'.2.isKeep with
      | false =>
        rw [hkp] at hta'
        simp at hta'
        rw [← hta']
        exact hkp
      | true =>
        rw [hkp] at hta'
        simp only [if_pos] at hta'
        cases hl : dictLookup (exMinus E (dropsOf A)) r'.1 with
        | none => rw [hl] at hta'; exact Option.noConfusion hta'
        | some w =>
          rw [hl] at hta'
          simp at hta'
          have hmem := mem_of_dictLookup_eq_some _ _ _ hl
          have hmemE := (mem_exMinus E _ _ hmem).1
          have := hEk (r'.1, w) hmemE
          rw [← hta']
          exact this
  · have hmem := (mem_exMinus E _ _ (mem_stageX A E m kx kv h).1).1
    exact hEk kv hmem

/-- Rename source keys never occur in the reconciled output. -/
theorem F_src_none (A E : Dict) (m : String) (kx : List String)
    (hsrc : ∀ s ∈ dropsOf A, s ∉ A.map tgtOf) :
    ∀ s ∈ dropsOf A, dictLookup (stageT A E ++ stageX A E m kx) s = none := by
  intro s hs
  rw [dictLookup_append]
  have hT : dictLookup (stageT A E) s = none := by
    rw [dictLookup_eq_none_iff]
    intro hmem
    exact hsrc s hs (keys_stageT_subset A E s hmem)
  rw [hT]
  rw [dictLookup_eq_none_iff]
  intro hmem
  rcases List.mem_map.mp hmem with ⟨kv, hkv, hfst⟩
  have hc := (mem_exMinus E _ _ (mem_stageX A E m kx kv hkv).1).2
  have htrue : (dropsOf A).contains kv.1 = true := by
    rw [hfst]
    exact List.elem_iff.mpr hs
  rw [htrue] at hc
  exact Bool.noConfusion hc

/-- Stripping the rename sources from the reconciled output is a no-op. -/
theorem exMinus_F_eq (A E : Dict) (m : String) (kx : List String)
    (hsrc : ∀ s ∈ dropsOf A, s ∉ A.map tgtOf) :
    exMinus (stageT A E ++ stageX A E m kx) (dropsOf A) =
      stageT A E ++ stageX A E m kx := by
  unfold exMinus
  apply List.filter_eq_self.mpr
  intro kv hkv
  rw [Bool.not_eq_true']
  cases hc : (dropsOf A).contains kv.1 with
  | false => rfl
  | true =>
    have hin : kv.1 ∈ dropsOf A := List.elem_iff.mp hc
    have hnone := F_src_none A E m kx hsrc kv.1 hin
    have hsome := dictLookup_isSome_of_mem _ kv hkv
    rw [hnone] at hsome
    exact Bool.noConfusion hsome

theorem dictLookup_filter_none (d : Dict) (p : String × Val → Bool) (k : String)
    (h : dictLookup d k = none) : dictLookup (d.filter p) k = none := by
  rw [dictLookup_eq_none_iff] at h ⊢
  intro hmem
  exact h ((keys_filter_sublist d p).subset hmem)

/-- Looking up a template target key in the reconciled output recovers the
entry's own contribution. -/
theorem lookup_F_tgt (A E : Dict) (m : String) (kx : List String)
    (hnd : (A.map tgtOf).Nodup) (kv : String × Val) (hmem : kv ∈ A) :
    dictLookup (stageT A E ++ stageX A E m kx) (tgtOf kv) =
      match tEntry A E kv with
      | some r => some r.2
      | none => none := by
  rw [dictLookup_append, lookup_stageT_eq A E hnd kv hmem]
  cases ht : tEntry A E kv with
  | some r => rfl
  | none =>
    show dictLookup (stageX A E m kx) (tgtOf kv) = none
    unfold tEntry at ht
    cases hrr : rrEntry E kv with
    | some r' =>
      rw [hrr] at ht
      have ht' : bEntry (exMinus E (dropsOf A)) r' = none := ht
      unfold bEntry at ht'
      cases hk : r'.2.isKeep with
      | false =>
        rw [hk] at ht'
        simp at ht'
      | true =>
        rw [hk] at ht'
        simp only [if_pos] at ht'
        rw [Option.map_eq_none'] at ht'
        rw [rrEntry_key E kv r' hrr] at ht'
        unfold stageX
        exact dictLookup_filter_none _ _ _ ht'
    | none =>
      unfold rrEntry at hrr
      cases hs : splitSlash1 kv.1 with
      | none => rw [hs] at hrr; exact Option.noConfusion hrr
      | some sd =>
        rw [hs] at hrr
        cases hk : kv.2.isKeep with
        | false => rw [hk] at hrr; simp at hrr
        | true =>
          rw [hk] at hrr
          simp only [if_pos] at hrr
          cases h1 : dictLookup E sd.1 with
          | some w => rw [h1] at hrr; exact Option.noConfusion hrr
          | none =>
            rw [h1] at hrr
            cases h2 : dictLookup E sd.2 with
            | some w => rw [h2] at hrr; exact Option.noConfusion hrr
            | none =>
              have htgt : tgtOf kv = sd.2 := by unfold tgtOf; rw [hs]
              rw [htgt]
              have hx : dictLookup (exMinus E (dropsOf A)) sd.2 = none := by
                unfold exMinus
                exact dictLookup_filter_none _ _ _ h2
              unfold stageX
              exact dictLookup_filter_none _ _ _ hx

/-- The per-entry contribution computed against the reconciled output of a
first run agrees with the contribution computed against the original
metadata, provided the resolved targets are distinct, the rename sources
avoid them, and the metadata is keep-free. -/
theorem tEntry_F_eq (A E : Dict) (m : String) (kx : List String)
    (hnd : (A.map tgtOf).Nodup)
    (hsrc : ∀ s ∈ dropsOf A, s ∉ A.map tgtOf)
    (hEk : ∀ kv ∈ E, kv.2.isKeep = false)
    (kv : String × Val) (hmem : kv ∈ A) :
    tEntry A (stageT A E ++ stageX A E m kx) kv = tEntry A E kv := by
  have hFex : exMinus (stageT A E ++ stageX A E m kx) (dropsOf A) =
      stageT A E ++ stageX A E m kx := exMinus_F_eq A E m kx hsrc
  have hF := lookup_F_tgt A E m kx hnd kv hmem
  cases hs : splitSlash1 kv.1 with
  | none =>
    have htgt : tgtOf kv = kv.1 := by unfold tgtOf; rw [hs]
    rw [htgt] at hF
    have hrrF : rrEntry (stageT A E ++ stageX A E m kx) kv = some kv := by
      unfold rrEntry; rw [hs]
    have hrrE : rrEntry E kv = some kv := by
      unfold rrEntry; rw [hs]
    show (rrEntry (stageT A E ++ stageX A E m kx) kv).bind
        (bEntry (exMinus (stageT A E ++ stageX A E m kx) (dropsOf A))) = tEntry A E kv
    rw [hFex, hrrF]
    have hRHS : tEntry A E kv = bEntry (exMinus E (dropsOf A)) kv := by
      unfold tEntry; rw [hrrE]; rfl
    rw [hRHS]
    show bEntry (stageT A E ++ stageX A E m kx) kv = bEntry (exMinus E (dropsOf A)) kv
    unfold bEntry
    cases hk : kv.2.isKeep with
    | false => rfl
    | true =>
      have hXF : dictLookup (stageT A E ++ stageX A E m kx) kv.1 =
          dictLookup (exMinus E (dropsOf A)) kv.1 := by
        rw [hF]
        have htE : tEntry A E kv =
            (dictLookup (exMinus E (dropsOf A)) kv.1).map (fun w => (kv.1, w)) := by
          unfold tEntry
          rw [hrrE]
          show bEntry (exMinus E (dropsOf A)) kv = _
          unfold bEntry
          rw [hk]
          rfl
        rw [htE]
        cases dictLookup (exMinus E (dropsOf A)) kv.1 with
        | some w => rfl
        | none => rfl
      rw [hXF]
  | some sd =>
    have htgt : tgtOf kv = sd.2 := by unfold tgtOf; rw [hs]
    show (rrEntry (stageT A E ++ stageX A E m kx) kv).bind
        (bEntry (exMinus (stageT A E ++ stageX A E m kx) (dropsOf A))) = tEntry A E kv
    rw [hFex]
    cases hk : kv.2.isKeep with
    | false =>
      have hrrF : rrEntry (stageT A E ++ stageX A E m kx) kv = some (sd.2, kv.2) := by
        unfold rrEntry
        rw [hs]
        show (if kv.2.isKeep then
            match dictLookup (stageT A E ++ stageX A E m kx) sd.1 with
            | some w => some (sd.2, w)
            | none =>
              match dictLookup (stageT A E ++ stageX A E m kx) sd.2 with
              | some w => some (sd.2, w)
              | none => none
          else some (sd.2, kv.2)) = some (sd.2, kv.2)
        rw [hk]
        rfl
      have hrrE : rrEntry E kv = some (sd.2, kv.2) := by
        unfold rrEntry
        rw [hs]
        show (if kv.2.isKeep then
            match dictLookup E sd.1 with
            | some w => some (sd.2, w)
            | none =>
              match dictLookup E sd.2 with
              | some w => some (sd.2, w)
              | none => none
          else some (sd.2, kv.2)) = some (sd.2, kv.2)
        rw [hk]
        rfl
      rw [hrrF]
      have hRHS : tEntry A E kv = bEntry (exMinus E (dropsOf A)) (sd.2, kv.2) := by
        unfold tEntry; rw [hrrE]; rfl
      rw [hRHS]
      show bEntry (stageT A E ++ stageX A E m kx) (sd.2, kv.2) =
        bEntry (exMinus E (dropsOf A)) (sd.2, kv.2)
      unfold bEntry
      rw [show ((sd.2, kv.2) : String × Val).2 = kv.2 from rfl, hk]
      rfl
    | true =>
      have hsrcmem : sd.1 ∈ dropsOf A := by
        unfold dropsOf
        refine List.mem_filterMap.mpr ⟨kv, hmem, ?_⟩
        unfold srcOf
        rw [hs]
        rfl
      have hFsrc : dictLookup (stageT A E ++ stageX A E m kx) sd.1 = none :=
        F_src_none A E m kx hsrc sd.1 hsrcmem
      rw [htgt] at hF
      cases ht : tEntry A E kv with
      | some r =>
        have hr1 : r.1 = sd.2 := by rw [tEntry_key A E kv r ht, htgt]
        have hF' : dictLookup (stageT A E ++ stageX A E m kx) sd.2 = some r.2 := by
          rw [ht] at hF
          exact hF
        have hrmem : r ∈ stageT A E := by
          unfold stageT
          exact List.mem_filterMap.mpr ⟨kv, hmem, ht⟩
        have hrkeep : r.2.isKeep = false :=
          F_keepFree A E m kx hEk r (List.mem_append.mpr (Or.inl hrmem))
        have hrrF : rrEntry (stageT A E ++ stageX A E m kx) kv = some (sd.2, r.2) := by
          unfold rrEntry
          rw [hs]
          show (if kv.2.isKeep then
              match dictLookup (stageT A E ++ stageX A E m kx) sd.1 with
              | some w => some (sd.2, w)
              | none =>
                match dictLookup (stageT A E ++ stageX A E m kx) sd.2 with
                | some w => some (sd.2, w)
                | none => none
            else some (sd.2, kv.2)) = some (sd.2, r.2)
          rw [hk, hFsrc, hF']
          rfl
        rw [hrrF]
        show bEntry (stageT A E ++ stageX A E m kx) (sd.2, r.2) = some r
        unfold bEntry
        rw [show ((sd.2, r.2) : String × Val) = r from by rw [← hr1]]
        rw [hrkeep]
        rfl
      | none =>
        have hF' : dictLookup (stageT A E ++ stageX A E m kx) sd.2 = none := by
          rw [ht] at hF
          exact hF
        have hrrF : rrEntry (stageT A E ++ stageX A E m kx) kv = none := by
          unfold rrEntry
          rw [hs]
          show (if kv.2.isKeep then
              match dictLookup (stageT A E ++ stageX A E m kx) sd.1 with
              | some w => some (sd.2, w)
              | none =>
                match dictLookup (stageT A E ++ stageX A E m kx) sd.2 with
                | some w => some (sd.2, w)
                | none => none
            else some (sd.2, kv.2)) = none
          rw [hk, hFsrc, hF']
          rfl
        rw [hrrF]
        rfl

/-- The template-ordered stage is unchanged by a second pass over the
reconciled output. -/
theorem stageT_F_eq (A E : Dict) (m : String) (kx : List String)
    (hnd : (A.map tgtOf).Nodup)
    (hsrc : ∀ s ∈ dropsOf A, s ∉ A.map tgtOf)
    (hEk : ∀ kv ∈ E, kv.2.isKeep = false) :
    stageT A (stageT A E ++ stageX A E m kx) = stageT A E := by
  show A.filterMap (tEntry A (stageT A E ++ stageX A E m kx)) = A.filterMap (tEntry A E)
  exact List.filterMap_congr (fun kv hkv => tEntry_F_eq A E m kx hnd hsrc hEk kv hkv)

/-- The leftover stage is unchanged by a second pass over the reconciled
output. -/
theorem stageX_F_eq (A E : Dict) (m : String) (kx : List String)
    (hnd : (A.map tgtOf).Nodup)
    (hsrc : ∀ s ∈ dropsOf A, s ∉ A.map tgtOf)
    (hEk : ∀ kv ∈ E, kv.2.isKeep = false) :
    stageX A (stageT A E ++ stageX A E m kx) m kx = stageX A E m kx := by
  show (exMinus (stageT A E ++ stageX A E m kx) (dropsOf A)).filter
      (fun kv =>
        (dictLookup (stageT A (stageT A E ++ stageX A E m kx)) kv.1).isNone &&
          extraCond m kx kv.1) = stageX A E m kx
  rw [exMinus_F_eq A E m kx hsrc, stageT_F_eq A E m kx hnd hsrc hEk]
  rw [List.filter_append]
  have hTnil : (stageT A E).filter
      (fun kv => (dictLookup (stageT A E) kv.1).isNone && extraCond m kx kv.1) = [] := by
    apply List.filter_eq_nil_iff.mpr
    intro kv hkv
    have hsome := dictLookup_isSome_of_mem _ kv hkv
    intro hcon
    have h1 := ((Bool.and_eq_true _ _).mp hcon).1
    rw [Option.isNone_iff_eq_none] at h1
    rw [h1] at hsome
    exact Bool.noConfusion hsome
  have hXself : (stageX A E m kx).filter
      (fun kv => (dictLookup (stageT A E) kv.1).isNone && extraCond m kx kv.1) =
      stageX A E m kx := by
    apply List.filter_eq_self.mpr
    intro kv hkv
    have h := mem_stageX A E m kx kv hkv
    rw [Bool.and_eq_true]
    exact ⟨h.2.1, h.2.2⟩
  rw [hTnil, hXself, List.nil_append]

/-- Idempotence at the reconciliation level: reconciling the reconciled
output against the same applied template is a fixed point. -/
theorem reconcile_idem (A E : Dict) (m : String) (kx : List String)
    (hnd : (A.map tgtOf).Nodup) (hE : (dictKeys E).Nodup)
    (hsrc : ∀ s ∈ dropsOf A, s ∉ A.map tgtOf)
    (hEk : ∀ kv ∈ E, kv.2.isKeep = false) :
    reconcile A (reconcile A E m kx) m kx = reconcile A E m kx := by
  rw [reconcile_eq A E m kx hnd hE]
  rw [reconcile_eq A _ m kx hnd (keys_F_nodup A E m kx hnd hE)]
  rw [stageT_F_eq A E m kx hnd hsrc hEk, stageX_F_eq A E m kx hnd hsrc hEk]

/- ===================== claim C1: codec roundtrip ===================== -/

theorem splitLinesGo_line_acc (l : List Char) (hl : ∀ c ∈ l, c ≠ '\n') :
    ∀ (b : List Char) (acc : List Char),
      splitLinesGo (l ++ '\n' :: b) acc =
        ⟨(acc.reverse ++ l) ++ ['\n']⟩ :: splitLinesGo b [] := by
  induction l with
  | nil =>
    intro b acc
    have h1 : splitLinesGo ('\n' :: b) acc = ⟨('\n' :: acc).reverse⟩ :: splitLinesGo b [] :=
      rfl
    show splitLinesGo ('\n' :: b) acc = _
    rw [h1]
    simp
  | cons c l ih =>
    intro b acc
    have hc : c ≠ '\n' := hl c (List.mem_cons_self _ _)
    have h1 : splitLinesGo (c :: (l ++ '\n' :: b)) acc =
        if c = '\n' then ⟨(c :: acc).reverse⟩ :: splitLinesGo (l ++ '\n' :: b) []
        else splitLinesGo (l ++ '\n' :: b) (c :: acc) := rfl
    show splitLinesGo (c :: (l ++ '\n' :: b)) acc = _
    rw [h1, if_neg hc]
    rw [ih (fun x hx => hl x (List.mem_cons_of_mem _ hx)) b (c :: acc)]
    simp

theorem splitLinesGo_line (l : List Char) (hl : ∀ c ∈ l, c ≠ '\n') (b : List Char) :
    splitLinesGo (l ++ '\n' :: b) [] = ⟨l ++ ['\n']⟩ :: splitLinesGo b [] := by
  rw [splitLinesGo_line_acc l hl b []]
  simp

theorem string_join_go (t : List String) :
    ∀ a : String, t.foldl (fun r s => r ++ s) a = a ++ String.join t := by
  induction t with
  | nil =>
    intro a
    show a = a ++ ""
    apply String.ext
    simp
  | cons s t ih =>
    intro a
    show t.foldl _ (a ++ s) = a ++ String.join (s :: t)
    rw [ih (a ++ s)]
    show _ = a ++ (String.join (s :: t))
    have hj : String.join (s :: t) = s ++ String.join t := by
      show List.foldl _ ("" ++ s) t = _
      rw [ih ("" ++ s)]
      apply String.ext
      simp
    rw [hj]
    apply String.ext
    simp

theorem string_join_cons (s : String) (t : List String) :
    String.join (s :: t) = s ++ String.join t := by
  show List.foldl _ ("" ++ s) t = _
  rw [string_join_go t ("" ++ s)]
  apply String.ext
  simp

theorem join_splitLinesGo (cs : List Char) :
    ∀ acc : List Char, String.join (splitLinesGo cs acc) = ⟨acc.reverse ++ cs⟩ := by
  induction cs with
  | nil =>
    intro acc
    cases acc with
    | nil => rfl
    | cons x xs =>
      have h1 : splitLinesGo [] (x :: xs) = [⟨(x :: xs).reverse⟩] := rfl
      rw [h1, string_join_cons]
      apply String.ext
      simp
  | cons c cs ih =>
    intro acc
    have h1 : splitLinesGo (c :: cs) acc =
        if c = '\n' then ⟨(c :: acc).reverse⟩ :: splitLinesGo cs []
        else splitLinesGo cs (c :: acc) := rfl
    rw [h1]
    by_cases hc : c = '\n'
    · rw [if_pos hc]
      rw [string_join_cons, ih []]
      apply String.ext
      simp [hc]
    · rw [if_neg hc]
      rw [ih (c :: acc)]
      apply String.ext
      simp

theorem join_splitLinesKeep (s : String) : String.join (splitLinesKeep s) = s := by
  unfold splitLinesKeep
  rw [join_splitLinesGo s.data []]
  simp

theorem dumpLines_cons_elim (k : String) (v : Val) (t : Dict) (p : String)
    (h : dumpLines ((k, v) :: t) = some p) :
    ∃ vs rest, dumpVal v = some vs ∧ dumpLines t = some rest ∧
      plainScalar k = true ∧ p = k ++ ": " ++ vs ++ "\n" ++ rest := by
  unfold dumpLines at h
  cases hv : dumpVal v with
  | none => rw [hv] at h; exact Option.noConfusion h
  | some vs =>
    rw [hv] at h
    cases ht : dumpLines t with
    | none => rw [ht] at h; exact Option.noConfusion h
    | some rest =>
      rw [ht] at h
      cases hk : plainScalar k with
      | false => rw [hk] at h; simp at h
      | true =>
        rw [hk] at h
        simp at h
        exact ⟨vs, rest, rfl, rfl, rfl, h.symm⟩

theorem dumpVal_elim (v : Val) (vs : String) (h : dumpVal v = some vs) :
    v = Val.str vs ∧ plainScalar vs = true := by
  cases v with
  | str s =>
    have h' : (if plainScalar s = true then some s else none) = some vs := h
    cases hp : plainScalar s with
    | false => rw [hp] at h'; simp at h'
    | true =>
      rw [hp] at h'
      simp at h'
      exact ⟨by rw [h'], by rw [← h']; exact hp⟩
  | vint n => exact Option.noConfusion h
  | vbool b => exact Option.noConfusion h
  | vnull => exact Option.noConfusion h
  | keep => exact Option.noConfusion h
  | list l => exact Option.noConfusion h
  | map m => exact Option.noConfusion h

theorem dumpLines_facts (d : Dict) (p : String) (hd : dumpLines d = some p) :
    ∀ kv ∈ d, plainScalar kv.1 = true ∧ kv.2 = Val.str (valPlain kv.2) ∧
      plainScalar (valPlain kv.2) = true := by
  induction d generalizing p with
  | nil => intro kv hkv; simp at hkv
  | cons kv0 t ih =>
    intro kv hkv
    rcases dumpLines_cons_elim kv0.1 kv0.2 t p
      (by rw [show ((kv0.1, kv0.2) : String × Val) = kv0 from rfl]; exact hd) with
      ⟨vs, rest, hv, ht, hk, _⟩
    rcases List.mem_cons.mp hkv with h | h
    · subst h
      rcases dumpVal_elim kv.2 vs hv with ⟨hstr, hps⟩
      have hvp : valPlain kv.2 = vs := by rw [hstr]; rfl
      exact ⟨hk, by rw [hvp]; exact hstr, by rw [hvp]; exact hps⟩
    · exact ih rest ht kv h

theorem plain_no_nl (s : String) (hs : plainScalar s = true) :
    ∀ c ∈ s.data, c ≠ '\n' := by
  intro c hc
  unfold plainScalar at hs
  cases hdata : s.data with
  | nil => rw [hdata] at hs; exact Bool.noConfusion hs
  | cons c0 t =>
    rw [hdata] at hs
    have hall := ((Bool.and_eq_true _ _).mp
      (((Bool.and_eq_true _ _).mp (((Bool.and_eq_true _ _).mp hs).1)).1)).2
    rw [hdata] at hc
    have hpc : plainChar c = true := by
      have := List.all_eq_true.mp hall c hc
      exact this
    intro hh
    rw [hh] at hpc
    exact absurd hpc (by decide)

theorem lineOf_data (kv : String × Val) :
    (lineOf kv).data = kv.1.data ++ ':' :: ' ' :: ((valPlain kv.2).data ++ ['\n']) := by
  unfold lineOf
  simp [String.data_append]

theorem dump_split (d : Dict) (p : String) (hd : dumpLines d = some p) :
    ∀ b : List Char,
      splitLinesGo (p.data ++ b) [] = linesOf d ++ splitLinesGo b [] := by
  induction d generalizing p with
  | nil =>
    intro b
    have hp : p = "" := by
      unfold dumpLines at hd
      simp at hd
      rw [hd]
    rw [hp]
    rfl
  | cons kv t ih =>
    intro b
    rcases dumpLines_cons_elim kv.1 kv.2 t p
      (by rw [show ((kv.1, kv.2) : String × Val) = kv from rfl]; exact hd) with
      ⟨vs, rest, hv, ht, hk, hp⟩
    rcases dumpVal_elim kv.2 vs hv with ⟨hstr, hps⟩
    have hvp : valPlain kv.2 = vs := by rw [hstr]; rfl
    have hpd : p.data ++ b =
        (kv.1.data ++ ':' :: ' ' :: vs.data) ++ '\n' :: (rest.data ++ b) := by
      rw [hp]
      simp [String.data_append]
    rw [hpd]
    have hnl : ∀ c ∈ kv.1.data ++ ':' :: ' ' :: vs.data, c ≠ '\n' := by
      intro c hc
      rcases List.mem_append.mp hc with h | h
      · exact plain_no_nl kv.1 hk c h
      · rcases List.mem_cons.mp h with h | h
        · rw [h]; decide
        · rcases List.mem_cons.mp h with h | h
          · rw [h]; decide
          · exact plain_no_nl vs hps c h
    rw [splitLinesGo_line _ hnl]
    rw [ih rest ht b]
    show (⟨_⟩ : String) :: _ = lineOf kv :: _
    have hline : (⟨(kv.1.data ++ ':' :: ' ' :: vs.data) ++ ['\n']⟩ : String) = lineOf kv := by
      apply String.ext
      rw [lineOf_data, hvp]
      simp
    rw [hline]
    rfl

theorem dump_join (d : Dict) (p : String) (hd : dumpLines d = some p) :
    String.join (linesOf d) = p := by
  induction d generalizing p with
  | nil =>
    unfold dumpLines at hd
    simp at hd
    rw [← hd]
    rfl
  | cons kv t ih =>
    rcases dumpLines_cons_elim kv.1 kv.2 t p
      (by rw [show ((kv.1, kv.2) : String × Val) = kv from rfl]; exact hd) with
      ⟨vs, rest, hv, ht, hk, hp⟩
    rcases dumpVal_elim kv.2 vs hv with ⟨hstr, hps⟩
    have hvp : valPlain kv.2 = vs := by rw [hstr]; rfl
    show String.join (lineOf kv :: linesOf t) = p
    rw [string_join_cons, ih rest ht, hp]
    unfold lineOf
    rw [hvp]

theorem dropWhile_append_singleton (p : Char → Bool) (a : List Char) (c : Char)
    (hc : p c = false) : (a ++ [c]).dropWhile p = a.dropWhile p ++ [c] := by
  induction a with
  | nil =>
    show List.dropWhile p [c] = [c]
    unfold List.dropWhile
    rw [hc]
  | cons x a ih =>
    show List.dropWhile p (x :: (a ++ [c])) = List.dropWhile p (x :: a) ++ [c]
    unfold List.dropWhile
    cases hx : p x with
    | true => exact ih
    | false => rfl

theorem alpha_not_ws (c : Char) (h : c.isAlpha = true) : isPyWS c = false := by
  cases hw : isPyWS c with
  | false => rfl
  | true =>
    exfalso
    unfold isPyWS at hw
    simp only [Bool.or_eq_true, decide_eq_true_eq] at hw
    rcases hw with ((((h1 | h1) | h1) | h1) | h1) | h1 <;>
      (rw [h1] at h; exact absurd h (by decide))

theorem pyStrip_head (s : String) (c : Char) (t : List Char)
    (hs : s.data = c :: t) (hc : isPyWS c = false) :
    ∃ u, (pyStrip s).data = c :: u := by
  unfold pyStrip
  rw [hs]
  have h1 : (c :: t).dropWhile isPyWS = c :: t := by
    unfold List.dropWhile
    rw [hc]
  rw [h1]
  have h2 : (c :: t).reverse = t.reverse ++ [c] := by simp
  rw [h2]
  rw [dropWhile_append_singleton isPyWS t.reverse c hc]
  refine ⟨(t.reverse.dropWhile isPyWS).reverse, ?_⟩
  simp

theorem line_strip_ne (l : String) (c : Char) (rest : List Char)
    (hdata : l.data = c :: rest) (hc : c.isAlpha = true) :
    pyStrip l ≠ FRONTMATTER_DELIM ∧ pyStrip l ≠ "..." := by
  rcases pyStrip_head l c rest hdata (alpha_not_ws c hc) with ⟨u, hu⟩
  constructor
  · intro hh
    rw [hh] at hu
    have : c = '-' := by
      have hd : FRONTMATTER_DELIM.data = ['-', '-', '-'] := rfl
      rw [hd] at hu
      exact (List.cons.injEq _ _ _ _ ▸ hu).1.symm
    rw [this] at hc
    exact absurd hc (by decide)
  · intro hh
    rw [hh] at hu
    have : c = '.' := by
      have hd : ("..." : String).data = ['.', '.', '.'] := rfl
      rw [hd] at hu
      exact (List.cons.injEq _ _ _ _ ▸ hu).1.symm
    rw [this] at hc
    exact absurd hc (by decide)

theorem plain_head_alpha (s : String) (hs : plainScalar s = true) :
    ∃ c t, s.data = c :: t ∧ c.isAlpha = true := by
  unfold plainScalar at hs
  cases hdata : s.data with
  | nil => rw [hdata] at hs; exact Bool.noConfusion hs
  | cons c t =>
    rw [hdata] at hs
    have halpha := ((Bool.and_eq_true _ _).mp
      (((Bool.and_eq_true _ _).mp (((Bool.and_eq_true _ _).mp hs).1)).1)).1
    exact ⟨c, t, rfl, halpha⟩

theorem linesOf_strip_ne (d : Dict) (p : String) (hd : dumpLines d = some p) :
    ∀ l ∈ linesOf d, pyStrip l ≠ FRONTMATTER_DELIM ∧ pyStrip l ≠ "..." := by
  intro l hl
  rcases List.mem_map.mp hl with ⟨kv, hkv, hline⟩
  have hfacts := dumpLines_facts d p hd kv hkv
  rcases plain_head_alpha kv.1 hfacts.1 with ⟨c, t, hdata, hc⟩
  have hldata : l.data = c :: (t ++ ':' :: ' ' :: ((valPlain kv.2).data ++ ['\n'])) := by
    rw [← hline, lineOf_data, hdata]
    rfl
  exact line_strip_ne l c _ hldata hc

theorem findEndIdx_skip (ls : List String)
    (h : ∀ l ∈ ls, pyStrip l ≠ FRONTMATTER_DELIM ∧ pyStrip l ≠ "...") :
    ∀ (t : List String) (i : Nat), findEndIdx (ls ++ t) i = findEndIdx t (i + ls.length) := by
  induction ls with
  | nil => intro t i; simp
  | cons l ls ih =>
    intro t i
    have hne := h l (List.mem_cons_self _ _)
    have hstep : findEndIdx (l :: (ls ++ t)) i =
        if pyStrip l = FRONTMATTER_DELIM ∨ pyStrip l = "..." then some i
        else findEndIdx (ls ++ t) (i + 1) := rfl
    show findEndIdx (l :: (ls ++ t)) i = findEndIdx t (i + (l :: ls).length)
    rw [hstep]
    rw [if_neg (by intro hor; rcases hor with hh | hh; exact hne.1 hh; exact hne.2 hh)]
    rw [ih (fun x hx => h x (List.mem_cons_of_mem _ hx)) t (i + 1)]
    have harith : i + 1 + ls.length = i + (ls.length + 1) := by omega
    rw [harith]
    rfl

theorem splitColonGo_plain (k : List Char) (hk : ∀ c ∈ k, c ≠ ':') :
    ∀ (rest acc : List Char),
      splitColonGo (k ++ ':' :: ' ' :: rest) acc = some (acc.reverse ++ k, rest) := by
  induction k with
  | nil =>
    intro rest acc
    show splitColonGo (':' :: ' ' :: rest) acc = _
    unfold splitColonGo
    rw [if_pos rfl]
    simp
  | cons c k ih =>
    intro rest acc
    have hc : c ≠ ':' := hk c (List.mem_cons_self _ _)
    show splitColonGo (c :: (k ++ ':' :: ' ' :: rest)) acc = _
    unfold splitColonGo
    rw [if_neg hc]
    rw [ih (fun x hx => hk x (List.mem_cons_of_mem _ hx)) rest (c :: acc)]
    simp

theorem plain_no_colon (s : String) (hs : plainScalar s = true) :
    ∀ c ∈ s.data, c ≠ ':' := by
  intro c hc
  unfold plainScalar at hs
  cases hdata : s.data with
  | nil => rw [hdata] at hs; exact Bool.noConfusion hs
  | cons c0 t =>
    rw [hdata] at hs
    have hall := ((Bool.and_eq_true _ _).mp
      (((Bool.and_eq_true _ _).mp (((Bool.and_eq_true _ _).mp hs).1)).1)).2
    rw [hdata] at hc
    have hpc : plainChar c = true := List.all_eq_true.mp hall c hc
    intro hh
    rw [hh] at hpc
    exact absurd hpc (by decide)

theorem parseLine_lineOf (k s : String) (hk : plainScalar k = true)
    (hs : plainScalar s = true) :
    parseLine (k ++ ": " ++ s ++ "\n") = some (k, Val.str s) := by
  have hdata : (k ++ ": " ++ s ++ "\n").data =
      (k.data ++ ':' :: ' ' :: s.data) ++ ['\n'] := by
    simp [String.data_append]
  have hstrip : stripNLEnd (k ++ ": " ++ s ++ "\n") = ⟨k.data ++ ':' :: ' ' :: s.data⟩ := by
    unfold stripNLEnd
    rw [hdata]
    rw [if_pos (by rw [List.getLastD_concat])]
    rw [List.dropLast_concat]
  unfold parseLine
  rw [hstrip]
  rw [splitColonGo_plain k.data (plain_no_colon k hk) s.data []]
  show (if (plainScalar ⟨k.data⟩ && plainScalar ⟨s.data⟩) = true then
      some ((⟨k.data⟩ : String), Val.str ⟨s.data⟩) else none) = some (k, Val.str s)
  have hkk : plainScalar ⟨k.data⟩ = true := hk
  have hss : plainScalar ⟨s.data⟩ = true := hs
  rw [hkk, hss]
  rfl

theorem parseFmGo_linesOf (d : Dict)
    (hfacts : ∀ kv ∈ d, plainScalar kv.1 = true ∧ kv.2 = Val.str (valPlain kv.2) ∧
      plainScalar (valPlain kv.2) = true)
    (hnd : (dictKeys d).Nodup) :
    ∀ acc : Dict, (∀ k ∈ dictKeys d, dictLookup acc k = none) →
      parseFmGo acc (linesOf d) = some (acc ++ d) := by
  induction d with
  | nil => intro acc _; show some acc = _; rw [List.append_nil]
  | cons kv t ih =>
    intro acc hdisj
    have hf := hfacts kv (List.mem_cons_self _ _)
    have hline : parseLine (lineOf kv) = some (kv.1, Val.str (valPlain kv.2)) := by
      unfold lineOf
      exact parseLine_lineOf kv.1 (valPlain kv.2) hf.1 hf.2.2
    have hkv : (kv.1, Val.str (valPlain kv.2)) = kv := by
      have h2 := hf.2.1
      cases kv with
      | mk a b => simp only at h2 ⊢; rw [← h2]
    have hline' : parseLine (lineOf kv) = some kv := by rw [hline, hkv]
    show parseFmGo acc (lineOf kv :: linesOf t) = _
    have hstep : parseFmGo acc (lineOf kv :: linesOf t) =
        match parseLine (lineOf kv) with
        | some kv0 => parseFmGo (dictInsert acc kv0.1 kv0.2) (linesOf t)
        | none => none := rfl
    rw [hstep, hline']
    show parseFmGo (dictInsert acc kv.1 kv.2) (linesOf t) = _
    have hins : dictInsert acc kv.1 kv.2 = acc ++ [kv] := by
      rw [dictInsert_eq_append acc kv.1 kv.2
        (hdisj kv.1 (by unfold dictKeys; exact List.mem_map_of_mem _ (List.mem_cons_self _ _)))]
    rw [hins]
    have hndt : (dictKeys t).Nodup := by
      unfold dictKeys at hnd ⊢
      simp only [List.map_cons, List.nodup_cons] at hnd
      exact hnd.2
    have hhead : kv.1 ∉ dictKeys t := by
      unfold dictKeys
      have := hnd
      unfold dictKeys at this
      simp only [List.map_cons, List.nodup_cons] at this
      exact this.1
    rw [ih (fun x hx => hfacts x (List.mem_cons_of_mem _ hx)) hndt (acc ++ [kv])
      (by
        intro k hkt
        rw [dictLookup_append]
        rw [hdisj k (by
          unfold dictKeys at hkt ⊢
          simp only [List.map_cons]
          exact List.mem_cons_of_mem _ hkt)]
        show dictLookup [kv] k = none
        refine (dictLookup_eq_none_iff _ _).mpr ?_
        intro hmem
        unfold dictKeys at hmem
        simp at hmem
        rw [hmem] at hkt
        exact hhead hkt)]
    rw [List.append_assoc]
    rfl

theorem dropWhile_self (p : Char → Bool) (l : List Char) :
    (l.dropWhile p).dropWhile p = l.dropWhile p := by
  induction l with
  | nil => rfl
  | cons c t ih =>
    rw [List.dropWhile_cons]
    cases hc : p c with
    | true => simp only [if_true]; exact ih
    | false =>
      simp only [Bool.false_eq_true, if_false]
      rw [List.dropWhile_cons, hc]
      simp

theorem lstripNL_nl (s : String) : lstripNL ("\n" ++ lstripNL s) = lstripNL s := by
  apply String.ext
  have h1 : ("\n" ++ lstripNL s).data = '\n' :: s.data.dropWhile (fun c => c = '\n') := by
    rw [String.data_append]
    rfl
  show (("\n" ++ lstripNL s).data).dropWhile (fun c => c = '\n') = _
  rw [h1, List.dropWhile_cons, if_pos (by decide)]
  exact dropWhile_self _ _

theorem mem_keys_dictInsert (d : Dict) (k : String) (v : Val) (x : String)
    (h : x ∈ dictKeys (dictInsert d k v)) : x ∈ dictKeys d ∨ x = k := by
  induction d with
  | nil =>
    have h' : x ∈ dictKeys [(k, v)] := h
    unfold dictKeys at h'
    simp at h'
    exact Or.inr h'
  | cons kv t ih =>
    cases kv with
    | mk k' v' =>
      have h : x ∈ dictKeys (if k' = k then (k', v) :: t else (k', v') :: dictInsert t k v) :=
        h
      by_cases hk : k' = k
      · rw [if_pos hk] at h
        have h' : x = k' ∨ x ∈ dictKeys t := by
          unfold dictKeys at h
          simp only [List.map_cons, List.mem_cons] at h
          exact h
        rcases h' with h' | h'
        · refine Or.inl ?_
          unfold dictKeys
          simp only [List.map_cons, List.mem_cons]
          exact Or.inl h'
        · refine Or.inl ?_
          unfold dictKeys at h' ⊢
          simp only [List.map_cons, List.mem_cons]
          exact Or.inr h'
      · rw [if_neg hk] at h
        have h' : x = k' ∨ x ∈ dictKeys (dictInsert t k v) := by
          unfold dictKeys at h
          simp only [List.map_cons, List.mem_cons] at h
          exact h
        rcases h' with h' | h'
        · refine Or.inl ?_
          unfold dictKeys
          simp only [List.map_cons, List.mem_cons]
          exact Or.inl h'
        · rcases ih h' with h2 | h2
          · refine Or.inl ?_
            unfold dictKeys at h2 ⊢
            simp only [List.map_cons, List.mem_cons]
            exact Or.inr h2
          · exact Or.inr h2

theorem keys_dictInsert_nodup (d : Dict) (k : String) (v : Val)
    (h : (dictKeys d).Nodup) : (dictKeys (dictInsert d k v)).Nodup := by
  induction d with
  | nil =>
    show (dictKeys [(k, v)]).Nodup
    unfold dictKeys
    simp
  | cons kv t ih =>
    cases kv with
    | mk k' v' =>
      unfold dictKeys at h
      simp only [List.map_cons, List.nodup_cons] at h
      show (dictKeys (if k' = k then (k', v) :: t else (k', v') :: dictInsert t k v)).Nodup
      by_cases hk : k' = k
      · rw [if_pos hk]
        unfold dictKeys
        simp only [List.map_cons, List.nodup_cons]
        exact ⟨h.1, h.2⟩
      · rw [if_neg hk]
        unfold dictKeys
        simp only [List.map_cons, List.nodup_cons]
        refine ⟨?_, ih h.2⟩
        intro hmem
        rcases mem_keys_dictInsert t k v k' (by unfold dictKeys; exact hmem) with h2 | h2
        · exact h.1 h2
        · exact hk h2

theorem mem_dictInsert_val (d : Dict) (k : String) (v : Val) (kv : String × Val)
    (h : kv ∈ dictInsert d k v) : kv ∈ d ∨ kv.2 = v := by
  induction d with
  | nil =>
    have h' : kv ∈ [(k, v)] := h
    simp at h'
    rw [h']
    exact Or.inr rfl
  | cons kv0 t ih =>
    cases kv0 with
    | mk k' v' =>
      have h : kv ∈ (if k' = k then (k', v) :: t else (k', v') :: dictInsert t k v) := h
      by_cases hk : k' = k
      · rw [if_pos hk] at h
        rcases List.mem_cons.mp h with h | h
        · rw [h]; exact Or.inr rfl
        · exact Or.inl (List.mem_cons_of_mem _ h)
      · rw [if_neg hk] at h
        rcases List.mem_cons.mp h with h | h
        · rw [h]; exact Or.inl (List.mem_cons_self _ _)
        · rcases ih h with h2 | h2
          · exact Or.inl (List.mem_cons_of_mem _ h2)
          · exact Or.inr h2

theorem parseLine_val (l : String) (kv : String × Val) (h : parseLine l = some kv) :
    kv.2.isKeep = false := by
  unfold parseLine at h
  cases hsp : splitColonGo (stripNLEnd l).data [] with
  | none => rw [hsp] at h; exact Option.noConfusion h
  | some pr =>
    rw [hsp] at h
    cases pr with
    | mk a b =>
      have h' : (if (plainScalar ⟨a⟩ && plainScalar ⟨b⟩) = true then
          some ((⟨a⟩ : String), Val.str ⟨b⟩) else none) = some kv := h
      by_cases hps : (plainScalar ⟨a⟩ && plainScalar ⟨b⟩) = true
      · rw [if_pos hps] at h'
        have hkv : ((⟨a⟩, Val.str ⟨b⟩) : String × Val) = kv := by
          simpa using h'
        rw [← hkv]
        rfl
      · rw [if_neg hps] at h'
        exact Option.noConfusion h'

theorem parseFmGo_wf (lines : List String) :
    ∀ acc : Dict, (dictKeys acc).Nodup → (∀ kv ∈ acc, kv.2.isKeep = false) →
      ∀ d, parseFmGo acc lines = some d →
        (dictKeys d).Nodup ∧ ∀ kv ∈ d, kv.2.isKeep = false := by
  induction lines with
  | nil =>
    intro acc h1 h2 d h
    have hd : acc = d := by
      have : (some acc : Option Dict) = some d := h
      simpa using this
    rw [← hd]
    exact ⟨h1, h2⟩
  | cons l t ih =>
    intro acc h1 h2 d h
    have hstep : parseFmGo acc (l :: t) =
        match parseLine l with
        | some kv => parseFmGo (dictInsert acc kv.1 kv.2) t
        | none => none := rfl
    rw [hstep] at h
    cases hl : parseLine l with
    | none => rw [hl] at h; exact Option.noConfusion h
    | some kv =>
      rw [hl] at h
      refine ih (dictInsert acc kv.1 kv.2) (keys_dictInsert_nodup acc kv.1 kv.2 h1) ?_ d h
      intro kv' hkv'
      rcases mem_dictInsert_val acc kv.1 kv.2 kv' hkv' with h3 | h3
      · exact h2 kv' h3
      · rw [h3]
        exact parseLine_val l kv hl

theorem parseFm_wf (s : String) :
    (dictKeys (parseFm s)).Nodup ∧ ∀ kv ∈ parseFm s, kv.2.isKeep = false := by
  unfold parseFm
  cases hp : parseFmGo [] (splitLinesKeep s) with
  | none =>
    refine ⟨List.nodup_nil, ?_⟩
    intro kv hkv
    simp at hkv
  | some d =>
    exact parseFmGo_wf (splitLinesKeep s) [] List.nodup_nil
      (by intro kv hkv; simp at hkv) d hp

theorem split_frontmatter_wf (t : String) :
    (dictKeys (split_frontmatter t).1).Nodup ∧
      ∀ kv ∈ (split_frontmatter t).1, kv.2.isKeep = false := by
  have hnil : (dictKeys ([] : Dict)).Nodup ∧ ∀ kv ∈ ([] : Dict), kv.2.isKeep = false := by
    refine ⟨List.nodup_nil, ?_⟩
    intro kv hkv
    simp at hkv
  have key : ∀ r : Dict × String, split_frontmatter t = r →
      (dictKeys r.1).Nodup ∧ ∀ kv ∈ r.1, kv.2.isKeep = false := by
    intro r hr
    unfold split_frontmatter at hr
    by_cases hpre : FRONTMATTER_DELIM.data.isPrefixOf t.data = true
    · rw [if_neg (fun hh => hh hpre)] at hr
      dsimp only at hr
      cases hls : splitLinesKeep t with
      | nil =>
        rw [hls] at hr
        have hr' : (([] : Dict), t) = r := hr
        rw [← hr']
        exact hnil
      | cons l0 restL =>
        rw [hls] at hr
        have hr2 : (if pyStrip l0 ≠ FRONTMATTER_DELIM then (([] : Dict), t)
            else match findEndIdx restL 1 with
              | none => (([] : Dict), t)
              | some endIdx =>
                (parseFm (String.join (((l0 :: restL).take endIdx).drop 1)),
                 String.join ((l0 :: restL).drop (endIdx + 1)))) = r := hr
        by_cases hl0 : pyStrip l0 ≠ FRONTMATTER_DELIM
        · rw [if_pos hl0] at hr2
          rw [← hr2]
          exact hnil
        · rw [if_neg hl0] at hr2
          cases hfe : findEndIdx restL 1 with
          | none =>
            rw [hfe] at hr2
            have hr3 : (([] : Dict), t) = r := hr2
            rw [← hr3]
            exact hnil
          | some e =>
            rw [hfe] at hr2
            have hr3 : (parseFm (String.join (((l0 :: restL).take e).drop 1)),
                String.join ((l0 :: restL).drop (e + 1))) = r := hr2
            rw [← hr3]
            exact parseFm_wf _
    · rw [if_pos (fun hh => hpre hh)] at hr
      rw [← hr]
      exact hnil
  exact key _ rfl

theorem split_frontmatter_eval (text : String) (ls : List String) (endIdx : Nat)
    (hpre : FRONTMATTER_DELIM.data.isPrefixOf text.data = true)
    (hlines : splitLinesKeep text = "---\n" :: ls)
    (hend : findEndIdx ls 1 = some endIdx) :
    split_frontmatter text =
      (parseFm (String.join ((("---\n" :: ls).take endIdx).drop 1)),
       String.join (("---\n" :: ls).drop (endIdx + 1))) := by
  unfold split_frontmatter
  rw [if_neg (fun h => h hpre)]
  dsimp only
  rw [hlines]
  show (if pyStrip "---\n" ≠ FRONTMATTER_DELIM then (([] : Dict), text)
    else match findEndIdx ls 1 with
      | none => (([] : Dict), text)
      | some endIdx =>
        (parseFm (String.join ((("---\n" :: ls).take endIdx).drop 1)),
         String.join (("---\n" :: ls).drop (endIdx + 1)))) = _
  rw [if_neg (by intro hne; exact hne (by decide)), hend]

theorem parseFm_dump (d : Dict) (p : String) (hd : dumpLines d = some p)
    (hnd : (dictKeys d).Nodup) : parseFm p = d := by
  unfold parseFm
  have hsplit : splitLinesKeep p = linesOf d := by
    unfold splitLinesKeep
    have hds := dump_split d p hd []
    rw [List.append_nil] at hds
    rw [hds]
    rw [show splitLinesGo [] [] = [] from rfl, List.append_nil]
  rw [hsplit]
  rw [parseFmGo_linesOf d (dumpLines_facts d p hd) hnd [] (by intro k _; rfl)]
  rfl

/-- Splitting the frontmatter off a document the engine itself has just
serialized recovers the serialized mapping and the blank-line-led body. -/
theorem split_frontmatter_dump (d : Dict) (p : String) (hd : dumpLines d = some p)
    (hnd : (dictKeys d).Nodup) (rest : String) :
    split_frontmatter ("---\n" ++ p ++ "---\n\n" ++ rest) = (d, "\n" ++ rest) := by
  have hdata : ("---\n" ++ p ++ "---\n\n" ++ rest).data =
      ['-', '-', '-'] ++ '\n' :: (p.data ++ (['-', '-', '-'] ++ '\n' :: ('\n' :: rest.data))) := by
    simp [String.data_append, show ("---\n" : String).data = ['-', '-', '-', '\n'] from rfl,
      show ("---\n\n" : String).data = ['-', '-', '-', '\n', '\n'] from rfl]
  have hlines : splitLinesKeep ("---\n" ++ p ++ "---\n\n" ++ rest) =
      "---\n" :: (linesOf d ++ ("---\n" :: "\n" :: splitLinesKeep rest)) := by
    unfold splitLinesKeep
    rw [hdata]
    rw [splitLinesGo_line ['-', '-', '-'] (by decide)]
    rw [dump_split d p hd]
    rw [splitLinesGo_line ['-', '-', '-'] (by decide)]
    have h4 : splitLinesGo ('\n' :: rest.data) [] = "\n" :: splitLinesGo rest.data [] := rfl
    rw [h4]
    rfl
  have hpre : FRONTMATTER_DELIM.data.isPrefixOf
      ("---\n" ++ p ++ "---\n\n" ++ rest).data = true := by
    rw [hdata]
    rw [List.isPrefixOf_iff_prefix]
    rw [show FRONTMATTER_DELIM.data = ['-', '-', '-'] from rfl]
    exact List.prefix_append _ _
  have hn : (linesOf d).length = d.length := List.length_map _ _
  have hend : findEndIdx (linesOf d ++ ("---\n" :: "\n" :: splitLinesKeep rest)) 1 =
      some (1 + (linesOf d).length) := by
    rw [findEndIdx_skip (linesOf d) (linesOf_strip_ne d p hd)]
    show (if pyStrip "---\n" = FRONTMATTER_DELIM ∨ pyStrip "---\n" = "..."
      then some (1 + (linesOf d).length)
      else findEndIdx ("\n" :: splitLinesKeep rest) (1 + (linesOf d).length + 1)) = _
    rw [if_pos (Or.inl (by decide))]
  rw [split_frontmatter_eval _ _ (1 + (linesOf d).length) hpre hlines hend]
  have htake : (("---\n" :: (linesOf d ++ ("---\n" :: "\n" :: splitLinesKeep rest))).take
      (1 + (linesOf d).length)).drop 1 = linesOf d := by
    rw [show 1 + (linesOf d).length = (linesOf d).length + 1 from by omega]
    rw [List.take_succ_cons]
    rw [List.drop_succ_cons, List.drop_zero]
    rw [List.take_left]
  have hdrop : ("---\n" :: (linesOf d ++ ("---\n" :: "\n" :: splitLinesKeep rest))).drop
      (1 + (linesOf d).length + 1) = "\n" :: splitLinesKeep rest := by
    rw [show 1 + (linesOf d).length + 1 = ((linesOf d).length + 1) + 1 from by omega]
    rw [List.drop_succ_cons]
    rw [List.append_cons (linesOf d) "---\n"]
    rw [show (linesOf d).length + 1 = (linesOf d ++ ["---\n"]).length from by simp]
    rw [List.drop_left]
  rw [htake, hdrop]
  rw [dump_join d p hd, parseFm_dump d p hd hnd]
  rw [string_join_cons, join_splitLinesKeep]

theorem process_md_eval (template : Val) (settings : Settings) (execBase : DPath)
    (doc : MDoc) (A : Dict)
    (hcond : (baseRootActive settings && settings.scope_under_base_root &&
      (anchorOf settings execBase doc.path).isNone) = false)
    (hA : apply_template template (ctxOf settings execBase doc) = Val.map A) :
    process_md template settings execBase doc =
      match dump_frontmatter (reconcile A (split_frontmatter doc.text).1
          settings.key_mode settings.keep_extra_keys) with
      | some fmStr =>
        if fmStr ++ lstripNL (split_frontmatter doc.text).2 = doc.text then .noWrite
        else .wrote (fmStr ++ lstripNL (split_frontmatter doc.text).2)
      | none => .outOfModel := by
  unfold process_md
  dsimp only
  rw [hcond]
  simp only [Bool.false_eq_true, if_false]
  rw [hA]

/-- C1, counterexample: with the Rule Set
`{"OLD/NEW": "%wert%", "OLD": "litx"}` the processor is not idempotent: on
an empty document the first run writes `OLD: litx`, and the second run on
that output writes different content again (the rename now finds `OLD` and
re-adds it under `NEW` while the plain `OLD` rule re-creates it), instead
of reporting the document unchanged. -/
theorem c1_counterexample :
    process_md (Val.map [("OLD/NEW", Val.str "%wert%"), ("OLD", Val.str "litx")])
        {} ["R"] { path := ["R", "doc.md"], text := "", date := "d" } =
      ProcOutcome.wrote "---\nOLD: litx\n---\n\n" ∧
    process_md (Val.map [("OLD/NEW", Val.str "%wert%"), ("OLD", Val.str "litx")])
        {} ["R"] { path := ["R", "doc.md"], text := "---\nOLD: litx\n---\n\n", date := "d" } =
      ProcOutcome.wrote "---\nNEW: litx\nOLD: litx\n---\n\n" := by
  constructor
  · decide
  · decide

/-- C1 (amended): the Document Processor is idempotent provided the applied
Rule Set's resolved target names are pairwise distinct and no rename source
name is itself a resolved target: whenever `process_md` rewrites a document,
running it again on the rewritten content produces no change (no write, the
run reports it unchanged). -/
theorem c1_amended (template : Val) (settings : Settings) (execBase : DPath)
    (doc : MDoc) (A : Dict) (new : String)
    (hA : apply_template template (ctxOf settings execBase doc) = Val.map A)
    (hnd : (A.map tgtOf).Nodup)
    (hsrc : ∀ s ∈ dropsOf A, s ∉ A.map tgtOf)
    (hw : process_md template settings execBase doc = ProcOutcome.wrote new) :
    process_md template settings execBase { doc with text := new } =
      ProcOutcome.noWrite := by
  have hwf := split_frontmatter_wf doc.text
  have hE := hwf.1
  have hEk := hwf.2
  cases hcond : (baseRootActive settings && settings.scope_under_base_root &&
      (anchorOf settings execBase doc.path).isNone) with
  | true =>
    unfold process_md at hw
    dsimp only at hw
    rw [hcond] at hw
    simp at hw
  | false =>
    rw [process_md_eval template settings execBase doc A hcond hA] at hw
    cases hdump : dump_frontmatter (reconcile A (split_frontmatter doc.text).1
        settings.key_mode settings.keep_extra_keys) with
    | none => rw [hdump] at hw; exact absurd hw (by simp)
    | some fmStr =>
      rw [hdump] at hw
      have hw2 : (if fmStr ++ lstripNL (split_frontmatter doc.text).2 = doc.text
          then ProcOutcome.noWrite
          else ProcOutcome.wrote (fmStr ++ lstripNL (split_frontmatter doc.text).2)) =
          ProcOutcome.wrote new := hw
      by_cases heq : fmStr ++ lstripNL (split_frontmatter doc.text).2 = doc.text
      · rw [if_pos heq] at hw2
        exact absurd hw2 (by simp)
      · rw [if_neg heq] at hw2
        have hnew : new = fmStr ++ lstripNL (split_frontmatter doc.text).2 := by
          injection hw2 with hh
          exact hh.symm
        have hdump' : (dumpFm (reconcile A (split_frontmatter doc.text).1
            settings.key_mode settings.keep_extra_keys)).map
              (fun payload => "---\n" ++ payload ++ "---\n\n") = some fmStr := hdump
        cases hfm : dumpFm (reconcile A (split_frontmatter doc.text).1
            settings.key_mode settings.keep_extra_keys) with
        | none => rw [hfm] at hdump'; exact absurd hdump' (by simp)
        | some payload =>
          rw [hfm] at hdump'
          have hfmStr : fmStr = "---\n" ++ payload ++ "---\n\n" := by
            simp at hdump'
            exact hdump'.symm
          have hlines' : dumpLines (reconcile A (split_frontmatter doc.text).1
              settings.key_mode settings.keep_extra_keys) = some payload := by
            unfold dumpFm at hfm
            cases hemp : (reconcile A (split_frontmatter doc.text).1
                settings.key_mode settings.keep_extra_keys).isEmpty with
            | true => rw [hemp] at hfm; simp at hfm
            | false => rw [hemp] at hfm; simpa using hfm
          have hFnd : (dictKeys (reconcile A (split_frontmatter doc.text).1
              settings.key_mode settings.keep_extra_keys)).Nodup := by
            rw [reconcile_eq _ _ _ _ hnd hE]
            exact keys_F_nodup _ _ _ _ hnd hE
          have hcond2 : (baseRootActive settings && settings.scope_under_base_root &&
              (anchorOf settings execBase ({ doc with text := new } : MDoc).path).isNone)
              = false := hcond
          have hA2 : apply_template template
              (ctxOf settings execBase { doc with text := new }) = Val.map A := hA
          rw [process_md_eval template settings execBase { doc with text := new } A
            hcond2 hA2]
          have htext2 : ({ doc with text := new } : MDoc).text =
              "---\n" ++ payload ++ "---\n\n" ++ lstripNL (split_frontmatter doc.text).2 := by
            show new = _
            rw [hnew, hfmStr]
          rw [htext2]
          rw [split_frontmatter_dump _ payload hlines' hFnd _]
          dsimp only
          rw [reconcile_idem A _ settings.key_mode settings.keep_extra_keys hnd hE hsrc hEk]
          rw [hdump]
          show (if fmStr ++ lstripNL ("\n" ++ lstripNL (split_frontmatter doc.text).2) =
              "---\n" ++ payload ++ "---\n\n" ++ lstripNL (split_frontmatter doc.text).2
            then ProcOutcome.noWrite
            else ProcOutcome.wrote
              (fmStr ++ lstripNL ("\n" ++ lstripNL (split_frontmatter doc.text).2))) =
            ProcOutcome.noWrite
          rw [lstripNL_nl]
          rw [if_pos (by rw [hfmStr])]

/-- Concrete instance of the amended idempotence theorem: a plain one-field
Rule Set rewrites an empty document, and the second run reports no change. -/
theorem c1_amended_witness :
    process_md (Val.map [("title", Val.str "hello")]) {} ["R"]
      { path := ["R", "doc.md"], text := "---\ntitle: hello\n---\n\n", date := "d" } =
      ProcOutcome.noWrite :=
  c1_amended (Val.map [("title", Val.str "hello")]) {} ["R"]
    { path := ["R", "doc.md"], text := "", date := "d" }
    [("title", Val.str "hello")] "---\ntitle: hello\n---\n\n"
    rfl (by decide) (by decide) rfl

/- ===================== claim C6: scanner lemmas ===================== -/

theorem pct_not_digit (c : Char) (h : c.isDigit = true) : c ≠ '%' := by
  intro hh
  subst hh
  simp [Char.isDigit] at h

theorem replGo_no_pct (pt rep : List Char) :
    ∀ (cs : List Char) (n : Nat), cs.length ≤ n → (∀ c ∈ cs, c ≠ '%') →
      replGo ('%' :: pt) rep n cs = cs := by
  intro cs
  induction cs with
  | nil => intro n _ _; cases n <;> rfl
  | cons c cs ih =>
    intro n hlen hpct
    cases n with
    | zero => simp at hlen
    | succ n =>
      have hc : c ≠ '%' := hpct c (List.mem_cons_self _ _)
      have hpre : ('%' :: pt).isPrefixOf (c :: cs) = false := by
        simp [List.isPrefixOf, beq_eq_false_iff_ne.mpr (Ne.symm hc)]
      simp only [replGo, hpre, Bool.false_eq_true, if_false]
      rw [ih n (by simpa using Nat.succ_le_succ_iff.mp hlen)
        (fun c' h => hpct c' (List.mem_cons_of_mem _ h))]

theorem regexGo_no_pct (lt : List Char) (rep : Nat → List Char) :
    ∀ (cs : List Char) (n : Nat), cs.length ≤ n → (∀ c ∈ cs, c ≠ '%') →
      regexGo ('%' :: lt) rep n cs = cs := by
  intro cs
  induction cs with
  | nil => intro n _ _; cases n <;> rfl
  | cons c cs ih =>
    intro n hlen hpct
    cases n with
    | zero => simp at hlen
    | succ n =>
      have hc : c ≠ '%' := hpct c (List.mem_cons_self _ _)
      have hpre : ('%' :: lt).isPrefixOf (c :: cs) = false := by
        simp [List.isPrefixOf, beq_eq_false_iff_ne.mpr (Ne.symm hc)]
      simp only [regexGo, hpre, Bool.false_eq_true, if_false]
      rw [ih n (by simpa using Nat.succ_le_succ_iff.mp hlen)
        (fun c' h => hpct c' (List.mem_cons_of_mem _ h))]

theorem replGo_no_occ (pat rep : List Char) :
    ∀ (cs : List Char) (n : Nat), cs.length ≤ n →
      (∀ t, t <:+ cs → pat.isPrefixOf t = false) →
      replGo pat rep n cs = cs := by
  intro cs
  induction cs with
  | nil => intro n _ _; cases n <;> rfl
  | cons c cs ih =>
    intro n hlen hsuf
    cases n with
    | zero => simp at hlen
    | succ n =>
      have hpre : pat.isPrefixOf (c :: cs) = false :=
        hsuf (c :: cs) (List.suffix_refl _)
      simp only [replGo, hpre, Bool.false_eq_true, if_false]
      rw [ih n (by simpa using Nat.succ_le_succ_iff.mp hlen)
        (fun t h => hsuf t (h.trans (List.suffix_cons c cs)))]

theorem regexGo_no_occ (lit : List Char) (rep : Nat → List Char) :
    ∀ (cs : List Char) (n : Nat), cs.length ≤ n →
      (∀ t, t <:+ cs → lit.isPrefixOf t = false) →
      regexGo lit rep n cs = cs := by
  intro cs
  induction cs with
  | nil => intro n _ _; cases n <;> rfl
  | cons c cs ih =>
    intro n hlen hsuf
    cases n with
    | zero => simp at hlen
    | succ n =>
      have hpre : lit.isPrefixOf (c :: cs) = false :=
        hsuf (c :: cs) (List.suffix_refl _)
      simp only [regexGo, hpre, Bool.false_eq_true, if_false]
      rw [ih n (by simpa using Nat.succ_le_succ_iff.mp hlen)
        (fun t h => hsuf t (h.trans (List.suffix_cons c cs)))]

theorem suffix_pct_only (L : List Char) (hL : ∀ c ∈ L, c ≠ '%') :
    ∀ t, t <:+ L ++ ['%'] → t.head? = some '%' → t = ['%'] := by
  induction L with
  | nil =>
    intro t ht hh
    rcases List.suffix_cons_iff.mp ht with h | h
    · exact h
    · rw [List.suffix_nil.mp h] at hh
      simp at hh
  | cons c L ih =>
    intro t ht hh
    rcases List.suffix_cons_iff.mp ht with h | h
    · subst h
      simp at hh
      exact absurd hh (hL c (List.mem_cons_self _ _))
    · exact ih (fun c' hc' => hL c' (List.mem_cons_of_mem _ hc')) t h hh

theorem takeDigits_spec (ds : List Char) (hds : ∀ c ∈ ds, c.isDigit = true)
    (r : List Char) : takeDigits (ds ++ '%' :: r) = (ds, '%' :: r) := by
  induction ds with
  | nil => simp [takeDigits]
  | cons d ds ih =>
    have hd : d.isDigit = true := hds d (List.mem_cons_self _ _)
    simp [takeDigits, hd, ih (fun c h => hds c (List.mem_cons_of_mem _ h))]

theorem isPrefixOf_append_self (l t : List Char) : l.isPrefixOf (l ++ t) = true := by
  induction l with
  | nil => simp [List.isPrefixOf]
  | cons c cs ih => simp [List.isPrefixOf, ih]

theorem regexGo_nil (lit : List Char) (rep : Nat → List Char) (n : Nat) :
    regexGo lit rep n [] = [] := by
  cases n <;> rfl

theorem regexGo_match_head (lt : List Char) (rep : Nat → List Char)
    (ds : List Char) (hds : ds ≠ []) (hdig : ∀ c ∈ ds, c.isDigit = true)
    (n : Nat) (hn : (('%' :: lt) ++ ds ++ ['%']).length ≤ n) :
    regexGo ('%' :: lt) rep n (('%' :: lt) ++ ds ++ ['%']) = rep (digitsToNat ds) := by
  cases n with
  | zero => simp at hn
  | succ n =>
    have hshape : (('%' :: lt) ++ ds ++ ['%']) = '%' :: (lt ++ (ds ++ ['%'])) := by
      simp
    rw [hshape]
    have hpre : ('%' :: lt).isPrefixOf ('%' :: (lt ++ (ds ++ ['%']))) = true := by
      have h := isPrefixOf_append_self ('%' :: lt) (ds ++ ['%'])
      simp only [List.cons_append] at h
      exact h
    have hdrop : ('%' :: (lt ++ (ds ++ ['%']))).drop ('%' :: lt).length = ds ++ ['%'] := by
      have h := List.drop_left ('%' :: lt) (ds ++ ['%'])
      simp only [List.cons_append] at h
      exact h
    simp only [regexGo, hpre, if_true]
    rw [hdrop]
    have htd : takeDigits (ds ++ ['%']) = (ds, ['%']) := takeDigits_spec ds hdig []
    rw [htd]
    obtain ⟨d, ds', rfl⟩ : ∃ d ds', ds = d :: ds' := by
      cases ds with
      | nil => exact absurd rfl hds
      | cons d ds' => exact ⟨d, ds', rfl⟩
    simp [regexGo_nil]

/-- No pattern of the form `%…` occurs anywhere in `'%' :: mid ++ ds ++ "%"`
when the whole-string match fails, the middle characters are not `%`, and
`ds` is a digit run. -/
theorem no_occ_pct_string (pt mid ds : List Char)
    (hmid : ∀ c ∈ mid, c ≠ '%') (hdig : ∀ c ∈ ds, c.isDigit = true)
    (hpt : pt ≠ [])
    (hwhole : ('%' :: pt).isPrefixOf ('%' :: (mid ++ ds ++ ['%'])) = false) :
    ∀ t, t <:+ ('%' :: (mid ++ ds ++ ['%'])) →
      ('%' :: pt).isPrefixOf t = false := by
  intro t ht
  rcases List.suffix_cons_iff.mp ht with h | h
  · subst h
    exact hwhole
  · by_cases hh : t.head? = some '%'
    · have hall : ∀ c ∈ mid ++ ds, c ≠ '%' := by
        intro c hc
        rcases List.mem_append.mp hc with hc | hc
        · exact hmid c hc
        · exact pct_not_digit c (hdig c hc)
      have ht' : t = ['%'] := by
        apply suffix_pct_only (mid ++ ds) hall t _ hh
        have : mid ++ ds ++ ['%'] = (mid ++ ds) ++ ['%'] := by simp
        rw [← this]
        exact h
      subst ht'
      cases pt with
      | nil => exact absurd rfl hpt
      | cons a b => simp [List.isPrefixOf]
    · cases t with
      | nil => simp [List.isPrefixOf]
      | cons c t' =>
        have hc : c ≠ '%' := by
          intro hcc
          subst hcc
          exact hh rfl
        simp [List.isPrefixOf, beq_eq_false_iff_ne.mpr (Ne.symm hc)]

theorem pyReplace_no_occ (s pat rep : String) (hne : pat.data ≠ [])
    (hocc : ∀ t, t <:+ s.data → pat.data.isPrefixOf t = false) :
    pyReplace s pat rep = s := by
  unfold pyReplace
  have hemp : pat.data.isEmpty = false := by
    cases hp : pat.data with
    | nil => exact absurd hp hne
    | cons a b => rfl
  rw [hemp]
  simp only [Bool.false_eq_true, if_false]
  rw [replGo_no_occ pat.data rep.data s.data s.data.length (Nat.le_refl _) hocc]

theorem regexSubNum_no_occ (lit : String) (rep : Nat → String) (s : String)
    (hocc : ∀ t, t <:+ s.data → lit.data.isPrefixOf t = false) :
    regexSubNum lit rep s = s := by
  unfold regexSubNum
  rw [regexGo_no_occ lit.data _ s.data s.data.length (Nat.le_refl _) hocc]

theorem regexSubNum_no_pct (lt : List Char) (lit : String) (rep : Nat → String)
    (s : String) (hlit : lit.data = '%' :: lt)
    (hpct : ∀ c ∈ s.data, c ≠ '%') :
    regexSubNum lit rep s = s := by
  unfold regexSubNum
  rw [hlit, regexGo_no_pct lt _ s.data s.data.length (Nat.le_refl _) hpct]

/-- `repl_up` yields either the empty string or a member of the level
list. -/
theorem repl_up_mem (levels : List String) (n : Nat) :
    repl_up levels n = "" ∨ repl_up levels n ∈ levels := by
  unfold repl_up
  cases hl : levels.isEmpty with
  | true => simp
  | false =>
    simp only [hl, Bool.false_eq_true, if_false]
    by_cases hn : n < levels.length
    · rw [if_pos hn]
      right
      rw [List.getD_eq_getElem levels "" hn]
      exact List.getElem_mem _
    · rw [if_neg hn]
      right
      have hpos : 0 < levels.length := by
        cases levels with
        | nil => simp at hl
        | cons a b => simp
      rw [List.getD_eq_getElem levels "" hpos]
      exact List.getElem_mem _

/-- `repl_down` yields the root name or a member of the parts list. -/
theorem repl_down_mem (rootName : String) (parts : List String) (n : Nat) :
    repl_down rootName parts n = rootName ∨ repl_down rootName parts n ∈ parts := by
  unfold repl_down
  by_cases h0 : n = 0
  · simp [h0]
  · rw [if_neg h0]
    cases hp : parts.isEmpty with
    | true => simp
    | false =>
      simp only [hp, Bool.false_eq_true, if_false]
      by_cases hn : n - 1 < parts.length
      · rw [if_pos hn]
        right
        rw [List.getD_eq_getElem parts "" hn]
        exact List.getElem_mem _
      · rw [if_neg hn]
        left
        rfl

/-- The `%folderN%` pipeline on a pure placeholder string: the earlier
literal replacements leave it unchanged, the `%folderN%` pass replaces
the whole string through `repl_up`, and the `%rootN%` pass leaves the
substituted text (free of `%`) unchanged. -/
theorem subst_folder_core (ctx : Ctx) (ds : List Char)
    (hds : ds ≠ []) (hdig : ∀ c ∈ ds, c.isDigit = true)
    (hlev : ∀ l ∈ ctx.folder_levels_up, ∀ c ∈ l.data, c ≠ '%') :
    subst_scalar ⟨'%' :: 'f' :: 'o' :: 'l' :: 'd' :: 'e' :: 'r' :: (ds ++ ['%'])⟩ ctx
      = Val.str (repl_up ctx.folder_levels_up (digitsToNat ds)) := by
  have hS : (⟨'%' :: 'f' :: 'o' :: 'l' :: 'd' :: 'e' :: 'r' :: (ds ++ ['%'])⟩ : String).data
      = '%' :: (['f', 'o', 'l', 'd', 'e', 'r'] ++ ds ++ ['%']) := by
    simp
  have hocc5 : ∀ pt : List Char, pt ≠ [] →
      ('%' :: pt).isPrefixOf ('%' :: (['f', 'o', 'l', 'd', 'e', 'r'] ++ ds ++ ['%'])) = false →
      ∀ t, t <:+ (⟨'%' :: 'f' :: 'o' :: 'l' :: 'd' :: 'e' :: 'r' :: (ds ++ ['%'])⟩ : String).data →
        ('%' :: pt).isPrefixOf t = false := by
    intro pt hpt hwhole t ht
    rw [hS] at ht
    exact no_occ_pct_string pt ['f', 'o', 'l', 'd', 'e', 'r'] ds (by decide) hdig hpt hwhole t ht
  unfold subst_scalar
  rw [if_neg (by simp [SENTINEL_EMPTY, String.ext_iff]),
    if_neg (by simp [KEEP_TOKEN, String.ext_iff])]
  dsimp only
  rw [pyReplace_no_occ _ "%datum%" _ (by decide)
    (hocc5 ['d', 'a', 't', 'u', 'm', '%'] (by decide) (by simp [List.isPrefixOf]))]
  rw [pyReplace_no_occ _ "%date%" _ (by decide)
    (hocc5 ['d', 'a', 't', 'e', '%'] (by decide) (by simp [List.isPrefixOf]))]
  rw [pyReplace_no_occ _ "%data%" _ (by decide)
    (hocc5 ['d', 'a', 't', 'a', '%'] (by decide) (by simp [List.isPrefixOf]))]
  rw [pyReplace_no_occ _ "%folder%" _ (by decide)
    (hocc5 ['f', 'o', 'l', 'd', 'e', 'r', '%'] (by decide) (by
      cases ds with
      | nil => exact absurd rfl hds
      | cons d ds' =>
        simp [List.isPrefixOf,
          beq_eq_false_iff_ne.mpr (Ne.symm (pct_not_digit d (hdig d (List.mem_cons_self _ _))))]))]
  rw [pyReplace_no_occ _ "%root0%" _ (by decide)
    (hocc5 ['r', 'o', 'o', 't', '0', '%'] (by decide) (by simp [List.isPrefixOf]))]
  have hfold : regexSubNum "%folder" (repl_up ctx.folder_levels_up)
      ⟨'%' :: 'f' :: 'o' :: 'l' :: 'd' :: 'e' :: 'r' :: (ds ++ ['%'])⟩
      = repl_up ctx.folder_levels_up (digitsToNat ds) := by
    unfold regexSubNum
    have h := regexGo_match_head ['f', 'o', 'l', 'd', 'e', 'r']
      (fun n => (repl_up ctx.folder_levels_up n).data) ds hds hdig
      (('%' :: ['f', 'o', 'l', 'd', 'e', 'r']) ++ ds ++ ['%']).length (Nat.le_refl _)
    show (⟨regexGo ('%' :: ['f', 'o', 'l', 'd', 'e', 'r'])
        (fun n => (repl_up ctx.folder_levels_up n).data)
        ((('%' :: ['f', 'o', 'l', 'd', 'e', 'r']) ++ ds ++ ['%']).length)
        (('%' :: ['f', 'o', 'l', 'd', 'e', 'r']) ++ ds ++ ['%'])⟩ : String)
      = repl_up ctx.folder_levels_up (digitsToNat ds)
    rw [h]
  rw [hfold]
  have hw : ∀ c ∈ (repl_up ctx.folder_levels_up (digitsToNat ds)).data, c ≠ '%' := by
    rcases repl_up_mem ctx.folder_levels_up (digitsToNat ds) with h | h
    · rw [h]
      intro c hc
      simp at hc
    · exact hlev _ h
  rw [regexSubNum_no_pct ['r', 'o', 'o', 't'] "%root" _ _ rfl hw]

/-- The `%rootN%` pipeline on a pure placeholder string. -/
theorem subst_root_core (ctx : Ctx) (ds : List Char)
    (hds : ds ≠ []) (hdig : ∀ c ∈ ds, c.isDigit = true)
    (hroot : ∀ c ∈ ctx.exec_root_name.data, c ≠ '%') :
    subst_scalar ⟨'%' :: 'r' :: 'o' :: 'o' :: 't' :: (ds ++ ['%'])⟩ ctx
      = Val.str (repl_down ctx.exec_root_name ctx.root_parts_down (digitsToNat ds)) := by
  have hS : (⟨'%' :: 'r' :: 'o' :: 'o' :: 't' :: (ds ++ ['%'])⟩ : String).data
      = '%' :: (['r', 'o', 'o', 't'] ++ ds ++ ['%']) := by
    simp
  have hocc5 : ∀ pt : List Char, pt ≠ [] →
      ('%' :: pt).isPrefixOf ('%' :: (['r', 'o', 'o', 't'] ++ ds ++ ['%'])) = false →
      ∀ t, t <:+ (⟨'%' :: 'r' :: 'o' :: 'o' :: 't' :: (ds ++ ['%'])⟩ : String).data →
        ('%' :: pt).isPrefixOf t = false := by
    intro pt hpt hwhole t ht
    rw [hS] at ht
    exact no_occ_pct_string pt ['r', 'o', 'o', 't'] ds (by decide) hdig hpt hwhole t ht
  unfold subst_scalar
  rw [if_neg (by simp [SENTINEL_EMPTY, String.ext_iff]),
    if_neg (by simp [KEEP_TOKEN, String.ext_iff])]
  dsimp only
  rw [pyReplace_no_occ _ "%datum%" _ (by decide)
    (hocc5 ['d', 'a', 't', 'u', 'm', '%'] (by decide) (by simp [List.isPrefixOf]))]
  rw [pyReplace_no_occ _ "%date%" _ (by decide)
    (hocc5 ['d', 'a', 't', 'e', '%'] (by decide) (by simp [List.isPrefixOf]))]
  rw [pyReplace_no_occ _ "%data%" _ (by decide)
    (hocc5 ['d', 'a', 't', 'a', '%'] (by decide) (by simp [List.isPrefixOf]))]
  rw [pyReplace_no_occ _ "%folder%" _ (by decide)
    (hocc5 ['f', 'o', 'l', 'd', 'e', 'r', '%'] (by decide) (by simp [List.isPrefixOf]))]
  by_cases h0 : ds = ['0']
  · subst h0
    have hrepl : pyReplace ⟨'%' :: 'r' :: 'o' :: 'o' :: 't' :: (['0'] ++ ['%'])⟩
        "%root0%" ctx.exec_root_name = ctx.exec_root_name := by
      unfold pyReplace
      simp only [List.isEmpty_iff]
      rw [if_neg (by decide)]
      show (⟨replGo ['%', 'r', 'o', 'o', 't', '0', '%'] ctx.exec_root_name.data 7
        ['%', 'r', 'o', 'o', 't', '0', '%']⟩ : String) = ctx.exec_root_name
      simp [replGo, List.isPrefixOf]
    rw [hrepl]
    have hroot' : ∀ c ∈ ctx.exec_root_name.data, c ≠ '%' := hroot
    rw [regexSubNum_no_pct ['f', 'o', 'l', 'd', 'e', 'r'] "%folder" _ _ rfl hroot']
    rw [regexSubNum_no_pct ['r', 'o', 'o', 't'] "%root" _ _ rfl hroot']
    have : repl_down ctx.exec_root_name ctx.root_parts_down (digitsToNat ['0'])
        = ctx.exec_root_name := by
      unfold repl_down
      rfl
    rw [this]
  · rw [pyReplace_no_occ _ "%root0%" _ (by decide)
      (hocc5 ['r', 'o', 'o', 't', '0', '%'] (by decide) (by
        cases ds with
        | nil => exact absurd rfl hds
        | cons d ds' =>
          by_cases hd : d = '0'
          · subst hd
            cases ds' with
            | nil => exact absurd rfl h0
            | cons d2 ds2 =>
              simp [List.isPrefixOf, beq_eq_false_iff_ne.mpr
                (Ne.symm (pct_not_digit d2 (hdig d2 (by simp))))]
          · simp [List.isPrefixOf,
              beq_eq_false_iff_ne.mpr (fun hh => hd hh.symm)]))]
    have hnofold : regexSubNum "%folder" (repl_up ctx.folder_levels_up)
        ⟨'%' :: 'r' :: 'o' :: 'o' :: 't' :: (ds ++ ['%'])⟩
        = ⟨'%' :: 'r' :: 'o' :: 'o' :: 't' :: (ds ++ ['%'])⟩ := by
      apply regexSubNum_no_occ
      intro t ht
      exact hocc5 ['f', 'o', 'l', 'd', 'e', 'r'] (by decide) (by simp [List.isPrefixOf]) t ht
    rw [hnofold]
    have hroot2 : regexSubNum "%root"
        (repl_down ctx.exec_root_name ctx.root_parts_down)
        ⟨'%' :: 'r' :: 'o' :: 'o' :: 't' :: (ds ++ ['%'])⟩
        = repl_down ctx.exec_root_name ctx.root_parts_down (digitsToNat ds) := by
      unfold regexSubNum
      have h := regexGo_match_head ['r', 'o', 'o', 't']
        (fun n => (repl_down ctx.exec_root_name ctx.root_parts_down n).data) ds hds hdig
        (('%' :: ['r', 'o', 'o', 't']) ++ ds ++ ['%']).length (Nat.le_refl _)
      show (⟨regexGo ('%' :: ['r', 'o', 'o', 't'])
          (fun n => (repl_down ctx.exec_root_name ctx.root_parts_down n).data)
          ((('%' :: ['r', 'o', 'o', 't']) ++ ds ++ ['%']).length)
          (('%' :: ['r', 'o', 'o', 't']) ++ ds ++ ['%'])⟩ : String)
        = repl_down ctx.exec_root_name ctx.root_parts_down (digitsToNat ds)
      rw [h]
    rw [hroot2]

/-- C6: for a document at `R/a/b/doc.md` processed with base directory
`R`, `%root1%-%root2%` resolves to `a-b`, `%folder0%` to `b` and
`%folder1%` to `a`; in general a `%folderN%` placeholder whose index is
out of range resolves to `upward_levels[0]` (the empty string when the
list is empty), and a `%rootN%` placeholder with `N = 0` or out of range
resolves to the base directory's name. -/
theorem c6_placeholders :
    subst_scalar "%root1%-%root2%" ctxRab = Val.str "a-b" ∧
    subst_scalar "%folder0%" ctxRab = Val.str "b" ∧
    subst_scalar "%folder1%" ctxRab = Val.str "a" ∧
    (∀ (ctx : Ctx) (ds : List Char), ds ≠ [] → (∀ c ∈ ds, c.isDigit = true) →
      (∀ l ∈ ctx.folder_levels_up, ∀ c ∈ l.data, c ≠ '%') →
      ctx.folder_levels_up.length ≤ digitsToNat ds →
      subst_scalar ⟨'%' :: 'f' :: 'o' :: 'l' :: 'd' :: 'e' :: 'r' :: (ds ++ ['%'])⟩ ctx
        = Val.str (ctx.folder_levels_up.getD 0 "")) ∧
    (∀ (ctx : Ctx) (ds : List Char), ds ≠ [] → (∀ c ∈ ds, c.isDigit = true) →
      (∀ c ∈ ctx.exec_root_name.data, c ≠ '%') →
      (digitsToNat ds = 0 ∨ ctx.root_parts_down.length < digitsToNat ds) →
      subst_scalar ⟨'%' :: 'r' :: 'o' :: 'o' :: 't' :: (ds ++ ['%'])⟩ ctx
        = Val.str ctx.exec_root_name) := by
  refine ⟨rfl, rfl, rfl, ?_, ?_⟩
  · intro ctx ds hds hdig hlev hle
    rw [subst_folder_core ctx ds hds hdig hlev]
    have hnl : ¬ digitsToNat ds < ctx.folder_levels_up.length := Nat.not_lt.mpr hle
    unfold repl_up
    cases hl : ctx.folder_levels_up.isEmpty with
    | true =>
      rw [List.isEmpty_iff.mp hl]
      simp
    | false => simp [hnl]
  · intro ctx ds hds hdig hroot hor
    rw [subst_root_core ctx ds hds hdig hroot]
    rcases hor with h0 | hgt
    · unfold repl_down
      rw [if_pos h0]
    · have hn0 : digitsToNat ds ≠ 0 := by
        intro hh
        rw [hh] at hgt
        simp at hgt
      unfold repl_down
      rw [if_neg hn0]
      cases hp : ctx.root_parts_down.isEmpty with
      | true => simp
      | false =>
        have : ¬ digitsToNat ds - 1 < ctx.root_parts_down.length := by
          omega
        simp [this]

/-- C6 witness: the general fallbacks instantiated at the `R/a/b/doc.md`
context (`%folder9%` out of range gives level 0 = `b`; `%root7%` out of
range gives the base name `R`), together with the concrete example. -/
theorem c6_placeholders_witness :
    subst_scalar "%root1%-%root2%" ctxRab = Val.str "a-b" ∧
    subst_scalar ⟨'%' :: 'f' :: 'o' :: 'l' :: 'd' :: 'e' :: 'r' :: (['9'] ++ ['%'])⟩ ctxRab
      = Val.str "b" ∧
    subst_scalar ⟨'%' :: 'r' :: 'o' :: 'o' :: 't' :: (['7'] ++ ['%'])⟩ ctxRab
      = Val.str "R" := by
  refine ⟨c6_placeholders.1, ?_, ?_⟩
  · exact c6_placeholders.2.2.2.1 ctxRab ['9'] (by decide) (by decide) (by decide) (by decide)
  · exact c6_placeholders.2.2.2.2 ctxRab ['7'] (by decide) (by decide) (by decide)
      (Or.inr (by decide))

/- ===================== claims C7, C8, C9 ===================== -/

theorem ancestorsAux_names (n : Nat) :
    ∀ q : DPath, q.length = n →
      (ancestorsAux n q).map pathName = q.reverse ++ [""] := by
  induction n with
  | zero =>
    intro q hq
    rw [List.length_eq_zero] at hq
    subst hq
    rfl
  | succ n ih =>
    intro q hq
    have hne : q ≠ [] := by
      intro hh
      subst hh
      simp at hq
    have hlast : pathName q = q.getLast hne := by
      unfold pathName
      rw [List.getLastD_eq_getLast? , List.getLast?_eq_getLast q hne]
      rfl
    have hrec : (ancestorsAux n (pathParent q)).map pathName =
        (pathParent q).reverse ++ [""] := by
      apply ih
      unfold pathParent
      rw [List.length_dropLast, hq]
      rfl
    show pathName q :: (ancestorsAux n (pathParent q)).map pathName = q.reverse ++ [""]
    rw [hrec, hlast]
    have hsplit : q = q.dropLast ++ [q.getLast hne] := (List.dropLast_append_getLast hne).symm
    calc q.getLast hne :: ((pathParent q).reverse ++ [""])
        = (q.dropLast ++ [q.getLast hne]).reverse ++ [""] := by
          unfold pathParent
          simp
      _ = q.reverse ++ [""] := by rw [← hsplit]

theorem ancestors_names (q : DPath) :
    (ancestors q).map pathName = q.reverse ++ [""] :=
  ancestorsAux_names q.length q rfl

/-- A document whose parent directory extends a run root containing an
excluded component is excluded. -/
theorem is_excluded_of_root_component (mdPath : DPath) (excl : List String)
    (pat c : String) (hpat : pat ∈ excl) (hmatch : fnmatchB c pat = true)
    (hc : c ∈ pathParent mdPath) :
    is_excluded mdPath excl = true := by
  unfold is_excluded
  apply List.any_eq_true.mpr
  refine ⟨pat, hpat, ?_⟩
  apply List.any_eq_true.mpr
  refine ⟨c, ?_, hmatch⟩
  rw [ancestors_names]
  apply List.mem_append_left
  exact List.mem_reverse.mpr hc

/-- C9: the exclusion check matches the excluded-folder globs against
all ancestor directory names, including ancestors above the run root:
whenever any component of the root matches an exclusion glob, every
document below the root is excluded, so the run performs no reads or
writes and reports zero documents. -/
theorem c9_root_inside_excluded (template : Val) (settings : Settings)
    (execBase : DPath) (childDirsOf : DPath → List String) (docs : List MDoc)
    (pat c : String)
    (hpat : pat ∈ settings.exclude_folders)
    (hc : c ∈ execBase)
    (hmatch : fnmatchB c pat = true)
    (hdocs : ∀ d ∈ docs, execBase.isPrefixOf (pathParent d.path)) :
    runLoop template settings execBase childDirsOf docs =
      ⟨[], 0, 0, false⟩ := by
  induction docs with
  | nil => rfl
  | cons d ds ih =>
    have hpre : execBase.isPrefixOf (pathParent d.path) :=
      hdocs d (List.mem_cons_self _ _)
    have hcm : c ∈ pathParent d.path :=
      (List.isPrefixOf_iff_prefix.mp hpre).subset hc
    have hex : is_excluded d.path settings.exclude_folders = true :=
      is_excluded_of_root_component d.path settings.exclude_folders pat c hpat hmatch hcm
    show runLoop template settings execBase childDirsOf (d :: ds) = _
    rw [runLoop.eq_def]
    simp only [hex, if_true]
    exact ih (fun d' h => hdocs d' (List.mem_cons_of_mem _ h))

/-- C7 counterexample: with `base_root="Project"` and
`scope_under_base_root=true`, a document with no ancestor named
`Project` is indeed left untouched (its only event is the read, no
write), but the run's considered total is 1, not 0 — the document is
NOT excluded from the "considered" count as the claim states. -/
theorem c7_counterexample :
    runLoop (Val.map [("t", Val.str "v")])
      { base_root := some "Project", scope_under_base_root := true }
      ["R"] (fun _ => [])
      [⟨["R", "x", "doc.md"], "body", "d"⟩] =
      ⟨[.readF ["R", "x", "doc.md"]], 1, 0, false⟩ := by
  decide

/-- C7 amended: with an anchor name configured and
`scope_under_base_root=true`, a document with no ancestor directory of
that name (searched up to but excluding the run root's parent) is left
untouched — `process_md` returns before substitution with no write — but
it IS included in the run's reported "considered" total (counted and
reported as unchanged). -/
theorem c7_anchor_scope (template : Val) (settings : Settings) (execBase : DPath)
    (childDirsOf : DPath → List String) (doc : MDoc) (an : String)
    (hbr : settings.base_root = some an)
    (hne : an ≠ "")
    (hsc : settings.scope_under_base_root = true)
    (hanchor : find_anchor_by_name execBase doc.path an = none)
    (hexcl : is_excluded doc.path settings.exclude_folders = false)
    (hsel : selectionSkip settings childDirsOf doc.path = false) :
    process_md template settings execBase doc = .noWrite ∧
    runLoop template settings execBase childDirsOf [doc] =
      ⟨[.readF doc.path], 1, 0, false⟩ := by
  have hactive : baseRootActive settings = true := by
    unfold baseRootActive
    rw [hbr]
    simp [hne]
  have hao : anchorOf settings execBase doc.path = none := by
    unfold anchorOf
    simp [hactive, hbr, hanchor]
  have hp : process_md template settings execBase doc = .noWrite := by
    unfold process_md
    dsimp only
    rw [hactive, hsc, hao]
    rfl
  refine ⟨hp, ?_⟩
  rw [runLoop.eq_def]
  simp only [hexcl, Bool.false_eq_true, if_false, hsel, hp]
  rfl

/-- C7 witness: the amended statement at a concrete input. -/
theorem c7_anchor_scope_witness :
    process_md (Val.map [("t", Val.str "v")])
      { base_root := some "Project", scope_under_base_root := true }
      ["Q"] ⟨["Q", "y", "note.md"], "bb", "d"⟩ = .noWrite ∧
    runLoop (Val.map [("t", Val.str "v")])
      { base_root := some "Project", scope_under_base_root := true }
      ["Q"] (fun _ => []) [⟨["Q", "y", "note.md"], "bb", "d"⟩] =
      ⟨[.readF ["Q", "y", "note.md"]], 1, 0, false⟩ :=
  c7_anchor_scope (Val.map [("t", Val.str "v")])
    { base_root := some "Project", scope_under_base_root := true }
    ["Q"] (fun _ => []) ⟨["Q", "y", "note.md"], "bb", "d"⟩ "Project"
    rfl (by decide) rfl (by decide) (by decide) (by decide)

/-- C8 counterexample: running with a Rule Set whose top level is not a
mapping, the first surviving document IS read before the explicit
template-shape error fires — the trace is a read event followed by the
abort, during traversal, contradicting "no document is read or written
before the error". -/
theorem c8_counterexample :
    runLoop (Val.list []) {} ["R"] (fun _ => [])
      [⟨["R", "doc.md"], "some text", "d"⟩] =
      ⟨[.readF ["R", "doc.md"], .errorStop], 1, 0, true⟩ := by
  decide

/-- C8 amended: the explicit template-shape error (the
`Template muss ein Mapping auf Top-Level sein` ValueError in
`process_md`) is raised during traversal at the first non-skipped
document, after that document has been read; the run aborts there with
no document written (traversal does begin, and one read precedes the
error). -/
theorem c8_template_shape_error (template : Val) (settings : Settings)
    (execBase : DPath) (childDirsOf : DPath → List String) (d : MDoc)
    (rest : List MDoc)
    (hnm : (apply_template template (ctxOf settings execBase d)).isMap = false)
    (hns : (baseRootActive settings && settings.scope_under_base_root &&
      (anchorOf settings execBase d.path).isNone) = false)
    (hexcl : is_excluded d.path settings.exclude_folders = false)
    (hsel : selectionSkip settings childDirsOf d.path = false) :
    process_md template settings execBase d = .errTemplate ∧
    runLoop template settings execBase childDirsOf (d :: rest) =
      ⟨[.readF d.path, .errorStop], 1, 0, true⟩ := by
  have hp : process_md template settings execBase d = .errTemplate := by
    unfold process_md
    dsimp only
    rw [hns]
    simp only [Bool.false_eq_true, if_false]
    cases happly : apply_template template (ctxOf settings execBase d) with
    | map e =>
      rw [happly] at hnm
      simp [Val.isMap] at hnm
    | str s => rfl
    | vint n => rfl
    | vbool b => rfl
    | vnull => rfl
    | keep => rfl
    | list items => rfl
  refine ⟨hp, ?_⟩
  rw [runLoop.eq_def]
  simp only [hexcl, Bool.false_eq_true, if_false, hsel, hp]

/-- C8 witness: the amended statement at a concrete input. -/
theorem c8_template_shape_error_witness :
    process_md (Val.vint 3) {} ["R"] ⟨["R", "n.md"], "tt", "d"⟩ = .errTemplate ∧
    runLoop (Val.vint 3) {} ["R"] (fun _ => [])
      [⟨["R", "n.md"], "tt", "d"⟩, ⟨["R", "m.md"], "uu", "d"⟩] =
      ⟨[.readF ["R", "n.md"], .errorStop], 1, 0, true⟩ :=
  c8_template_shape_error (Val.vint 3) {} ["R"] (fun _ => [])
    ⟨["R", "n.md"], "tt", "d"⟩ [⟨["R", "m.md"], "uu", "d"⟩]
    (by decide) (by decide) (by decide) (by decide)

/-- C9 witness: a run rooted inside a directory named `Python` (a
default exclusion glob) processes zero documents. -/
theorem c9_root_inside_excluded_witness :
    runLoop (Val.map []) {} ["home", "Python", "vault"] (fun _ => [])
      [⟨["home", "Python", "vault", "a.md"], "text", "d"⟩] = ⟨[], 0, 0, false⟩ :=
  c9_root_inside_excluded (Val.map []) {} ["home", "Python", "vault"] (fun _ => [])
    [⟨["home", "Python", "vault", "a.md"], "text", "d"⟩] "Python" "Python"
    (by decide) (by decide) (by decide)
    (by
      intro d hd
      rw [List.mem_singleton] at hd
      subst hd
      decide)

end Obis
